import Mathlib

/-!
Verification of the event discovery and notification deduplication pipeline
of the unmissable repository.

The model is a shallow embedding of the Supabase edge function
sync-events-and-notify (syncEventsAndNotify, its store helpers and the serve
handler) together with the mobile Ticketmaster client's fetchWithRetry.
Durable tables (known_events, sent_notifications, user_artists, users) are
lists inside an explicit state record; every store operation is modelled as
always succeeding (database errors are environment failures outside the
claims).  Each run is parameterised by a World giving the upstream catalog
response per artist and the push-provider outcome per (user, event) attempt.
Runs also emit a trace of observable actions (queries, fetches, sends,
ledger inserts, event marks) so that temporal claims can be stated on
traces.
-/

namespace Unmissable

/-- JavaScript truthy-or on an optional string: a || d, where the empty
string is falsy. -/
def jsOr (a : Option String) (d : String) : String :=
  match a with
  | some s => if s = "" then d else s
  | none => d

/-- JavaScript truthy-or keeping optionality: a || b. -/
def jsOrOpt (a b : Option String) : Option String :=
  match a with
  | some s => if s = "" then b else some s
  | none => b

/-- Image entry of a Ticketmaster event (fields used by the edge function:
url and width; the ratio field is unused on this code path). -/
structure TMImage where
  url : String
  width : Nat
deriving DecidableEq, Repr

/-- Classification entry: segment?.name and genre?.name. -/
structure TMClassification where
  segment : Option String
  genre : Option String
deriving DecidableEq, Repr

/-- Attraction entry of an event (_embedded.attractions). -/
structure TMAttraction where
  id : String
  name : String
deriving DecidableEq, Repr

/-- Venue entry of an event (_embedded.venues): name and city?.name. -/
structure TMVenue where
  name : String
  city : Option String
deriving DecidableEq, Repr

/-- A Ticketmaster event as consumed by the edge function.  dates.start is
flattened into the two optional date fields. -/
structure TMEvent where
  id : String
  name : String
  dateTime : Option String
  localDate : Option String
  venues : List TMVenue
  attractions : List TMAttraction
  url : Option String
  images : List TMImage
  classifications : List TMClassification
deriving DecidableEq, Repr

/-- Outcome of one HTTP query to the Ticketmaster events endpoint.  ok none
models a 200 body without _embedded.events; the three failure constructors
model a non-OK status (including 429), a thrown network error, and an
unparsable body (response.json() throwing). -/
inductive FetchResult where
  | httpError (status : Nat)
  | networkError
  | malformedBody
  | ok (events : Option (List TMEvent))
deriving DecidableEq, Repr

def isFetchFailure : FetchResult → Bool
  | .httpError _ => true
  | .networkError => true
  | .malformedBody => true
  | .ok _ => false

/-- Sports filter of fetchEventsForArtist:
event.classifications?.some(c => c.segment?.name === "Sports"). -/
def isSportsEvent (e : TMEvent) : Bool :=
  e.classifications.any (fun c => decide (c.segment = some "Sports"))

/-- fetchEventsForArtist: every failure (non-OK status, network error,
unparsable body) is caught and yields [], as does a body without events;
a successful body is filtered to drop sports events. -/
def fetchEventsForArtist (r : FetchResult) : List TMEvent :=
  match r with
  | .ok (some evs) => evs.filter (fun e => !isSportsEvent e)
  | _ => []

/-- Row of the known_events table.  The internal uuid primary key is
modelled as a Nat drawn from a counter. -/
structure KnownEvent where
  id : Nat
  ticketmaster_id : String
  artist_id : String
  artist_name : String
  event_name : String
  venue_name : String
  city : String
  event_date : Option String
  ticket_url : String
  image_url : String
  notified : Bool
deriving DecidableEq, Repr

/-- Row of the users table (only the fields the pipeline reads). -/
structure UserRow where
  id : String
  push_token : Option String
deriving DecidableEq, Repr

/-- The durable state: known_events, sent_notifications (ledger of
(user_id, event_id) pairs), the uuid counter, and the two relations the
core only reads (user_artists as (user_id, artist_id) pairs, users). -/
structure St where
  events : List KnownEvent
  ledger : List (String × Nat)
  nextId : Nat
  userArtists : List (String × String)
  users : List UserRow
deriving DecidableEq, Repr

/-- External world of one run: catalog response per artist id, and
push-provider outcome per (user_id, event internal id) send attempt. -/
structure World where
  fetchRes : String → FetchResult
  sendOk : String → Nat → Bool

/-- Aggregate counters returned by syncEventsAndNotify. -/
structure Stats where
  eventsProcessed : Nat
  newEventsAdded : Nat
  notificationsSent : Nat
deriving DecidableEq, Repr

/-- Observable actions of a run: store queries, upstream fetches, ledger
checks, dispatcher sends, ledger inserts and event marks. -/
inductive Action where
  | queryArtists
  | fetch (artistId : String)
  | queryExists (tmId : String)
  | insert (e : TMEvent)
  | queryUnnotified
  | queryFollowers (artistId : String)
  | queryLedger (userId : String) (eventId : Nat)
  | send (userId : String) (eventId : Nat) (ok : Bool)
  | record (userId : String) (eventId : Nat)
  | mark (eventId : Nat)
deriving DecidableEq, Repr

/-- getUniqueArtistIds: distinct artist_id values of user_artists, first
occurrence kept, as JavaScript [...new Set(xs)]. -/
def getUniqueArtistIds (s : St) : List String :=
  (s.userArtists.map (fun p => p.2)).foldl
    (fun acc x => if x ∈ acc then acc else acc ++ [x]) []

/-- eventExists: select from known_events where ticketmaster_id matches. -/
def eventExists (s : St) (tmId : String) : Bool :=
  s.events.any (fun e => decide (e.ticketmaster_id = tmId))

/-- Largest-width image, as the JavaScript reduce without seed over
event.images (absent or empty images yield no image; in the source an
explicitly empty array would make the seedless reduce throw, a case the
upstream API does not produce and which no claim depends on). -/
def bestImage (images : List TMImage) : Option TMImage :=
  match images with
  | [] => none
  | i :: rest => some (rest.foldl (fun best cur => if cur.width > best.width then cur else best) i)

/-- Artist name recovery in the discover loop:
attractions.find(a => a.id === artistId)?.name || attractions[0]?.name ||
"Unknown Artist". -/
def artistNameFor (e : TMEvent) (artistId : String) : String :=
  jsOr (jsOrOpt ((e.attractions.find? (fun a => decide (a.id = artistId))).map (fun a => a.name))
        (e.attractions.head?.map (fun a => a.name))) "Unknown Artist"

/-- The row insertKnownEvent builds: notified is always false, venue and
city default to TBA, event_date is dateTime || localDate. -/
def newKnownEvent (s : St) (e : TMEvent) (artistId artistName : String) : KnownEvent :=
  { id := s.nextId
    ticketmaster_id := e.id
    artist_id := artistId
    artist_name := artistName
    event_name := e.name
    venue_name := jsOr (e.venues.head?.map (fun v => v.name)) "TBA"
    city := jsOr (e.venues.head?.bind (fun v => v.city)) "TBA"
    event_date := jsOrOpt e.dateTime e.localDate
    ticket_url := jsOr e.url ""
    image_url := jsOr ((bestImage e.images).map (fun i => i.url)) ""
    notified := false }

/-- insertKnownEvent: append the new row and advance the uuid counter. -/
def insertKnownEvent (s : St) (e : TMEvent) (artistId artistName : String) : St :=
  { s with events := s.events ++ [newKnownEvent s e artistId artistName]
           nextId := s.nextId + 1 }

/-- getUnnotifiedEvents: select from known_events where notified = false. -/
def getUnnotifiedEvents (s : St) : List KnownEvent :=
  s.events.filter (fun e => !e.notified)

/-- getUsersFollowingArtist: user ids following the artist, joined with the
users table restricted to non-null push tokens, then the JavaScript truthy
filter dropping empty-string tokens.  Returns (user_id, push_token). -/
def getUsersFollowingArtist (s : St) (artistId : String) : List (String × String) :=
  let userIds := (s.userArtists.filter (fun p => decide (p.2 = artistId))).map (fun p => p.1)
  s.users.filterMap (fun u =>
    match u.push_token with
    | some t => if decide (u.id ∈ userIds) && decide (t ≠ "") then some (u.id, t) else none
    | none => none)

/-- wasNotificationSent: select from sent_notifications by (user, event). -/
def wasNotificationSent (s : St) (userId : String) (eventId : Nat) : Bool :=
  decide ((userId, eventId) ∈ s.ledger)

/-- recordSentNotification: insert the (user, event) pair. -/
def recordSentNotification (s : St) (userId : String) (eventId : Nat) : St :=
  { s with ledger := s.ledger ++ [(userId, eventId)] }

/-- markEventAsNotified: update known_events set notified = true where the
internal id matches. -/
def markEventAsNotified (s : St) (eventId : Nat) : St :=
  { s with events := s.events.map (fun e => if e.id = eventId then { e with notified := true } else e) }

/-- Result of processing one follower: new state, whether this send
succeeded, notificationsSent increment, emitted actions. -/
structure UserRes where
  st : St
  ok : Bool
  sent : Nat
  tr : List Action
deriving Repr

/-- One follower of the fan-out loop: skip when already recorded; else send,
and on success record the (user, event) pair. -/
def processUser (w : World) (ev : KnownEvent) (s : St) (u : String × String) : UserRes :=
  if wasNotificationSent s u.1 ev.id then
    ⟨s, false, 0, [.queryLedger u.1 ev.id]⟩
  else if w.sendOk u.1 ev.id then
    ⟨recordSentNotification s u.1 ev.id, true, 1,
      [.queryLedger u.1 ev.id, .send u.1 ev.id true, .record u.1 ev.id]⟩
  else
    ⟨s, false, 0, [.queryLedger u.1 ev.id, .send u.1 ev.id false]⟩

/-- Fan-out over the follower list of one event, accumulating the
eventNotifiedToAtLeastOne flag. -/
def processUsers (w : World) (ev : KnownEvent) (s : St) : List (String × String) → UserRes
  | [] => ⟨s, false, 0, []⟩
  | u :: rest =>
    let r1 := processUser w ev s u
    let r2 := processUsers w ev r1.st rest
    ⟨r2.st, r1.ok || r2.ok, r1.sent + r2.sent, r1.tr ++ r2.tr⟩

/-- Result of a notify-phase step: state, notificationsSent increment,
actions. -/
structure NotifyRes where
  st : St
  sent : Nat
  tr : List Action
deriving Repr

/-- One unnotified event of the notify phase: fetch followers with tokens,
fan out, then mark the event notified when at least one send succeeded or
there were no users to notify. -/
def processEvent (w : World) (s : St) (ev : KnownEvent) : NotifyRes :=
  let users := getUsersFollowingArtist s ev.artist_id
  let r := processUsers w ev s users
  if r.ok || users.isEmpty then
    ⟨markEventAsNotified r.st ev.id, r.sent, [.queryFollowers ev.artist_id] ++ r.tr ++ [.mark ev.id]⟩
  else
    ⟨r.st, r.sent, [.queryFollowers ev.artist_id] ++ r.tr⟩

/-- The notify loop over a snapshot list of unnotified events. -/
def processEvents (w : World) (s : St) : List KnownEvent → NotifyRes
  | [] => ⟨s, 0, []⟩
  | ev :: rest =>
    let r1 := processEvent w s ev
    let r2 := processEvents w r1.st rest
    ⟨r2.st, r1.sent + r2.sent, r1.tr ++ r2.tr⟩

/-- Notify phase: snapshot the unnotified events, then process each. -/
def notifyPhase (w : World) (s : St) : NotifyRes :=
  let r := processEvents w s (getUnnotifiedEvents s)
  ⟨r.st, r.sent, [.queryUnnotified] ++ r.tr⟩

/-- Result of a discover-phase step: state, eventsProcessed increment,
newEventsAdded increment, actions. -/
structure DiscoverRes where
  st : St
  processed : Nat
  added : Nat
  tr : List Action
deriving Repr

/-- One fetched event of the discover loop: check-then-insert against the
ticketmaster_id natural key. -/
def processTMEvent (s : St) (artistId : String) (e : TMEvent) : DiscoverRes :=
  if eventExists s e.id then
    ⟨s, 1, 0, [.queryExists e.id]⟩
  else
    ⟨insertKnownEvent s e artistId (artistNameFor e artistId), 1, 1, [.queryExists e.id, .insert e]⟩

/-- The per-artist inner loop over fetched events. -/
def processTMEvents (s : St) (artistId : String) : List TMEvent → DiscoverRes
  | [] => ⟨s, 0, 0, []⟩
  | e :: rest =>
    let r1 := processTMEvent s artistId e
    let r2 := processTMEvents r1.st artistId rest
    ⟨r2.st, r1.processed + r2.processed, r1.added + r2.added, r1.tr ++ r2.tr⟩

/-- One artist of the discover loop: fetch (all failures degraded to []),
then check-then-insert each returned event. -/
def discoverArtist (w : World) (s : St) (artistId : String) : DiscoverRes :=
  let r := processTMEvents s artistId (fetchEventsForArtist (w.fetchRes artistId))
  ⟨r.st, r.processed, r.added, [.fetch artistId] ++ r.tr⟩

/-- The discover loop over the distinct artist ids. -/
def discoverArtists (w : World) (s : St) : List String → DiscoverRes
  | [] => ⟨s, 0, 0, []⟩
  | a :: rest =>
    let r1 := discoverArtist w s a
    let r2 := discoverArtists w r1.st rest
    ⟨r2.st, r1.processed + r2.processed, r1.added + r2.added, r1.tr ++ r2.tr⟩

/-- Discover phase: read the distinct artist set, then fetch and upsert per
artist. -/
def discoverPhase (w : World) (s : St) : DiscoverRes :=
  let r := discoverArtists w s (getUniqueArtistIds s)
  ⟨r.st, r.processed, r.added, [.queryArtists] ++ r.tr⟩

/-- Result of a whole run. -/
structure RunRes where
  st : St
  stats : Stats
  tr : List Action
deriving Repr

/-- syncEventsAndNotify: discover phase then notify phase, returning the
aggregate counters. -/
def syncEventsAndNotify (w : World) (s : St) : RunRes :=
  let d := discoverPhase w s
  let n := notifyPhase w d.st
  ⟨n.st, ⟨d.processed, d.added, n.sent⟩, d.tr ++ n.tr⟩

/-- Environment configuration of the edge function. -/
structure Config where
  ticketmasterApiKey : Option String
  supabaseUrl : Option String
  serviceRoleKey : Option String

/-- JavaScript falsiness of an environment variable: absent or empty. -/
def missingVar (v : Option String) : Bool :=
  match v with
  | none => true
  | some s => decide (s = "")

/-- The serve handler's configuration check, in source order; the returned
message is the thrown error's message. -/
def configError (c : Config) : Option String :=
  if missingVar c.ticketmasterApiKey then some "TICKETMASTER_API_KEY is not set"
  else if missingVar c.supabaseUrl then some "SUPABASE_URL is not set"
  else if missingVar c.serviceRoleKey then some "SUPABASE_SERVICE_ROLE_KEY is not set"
  else none

inductive HttpMethod where
  | options
  | post
  | other
deriving DecidableEq, Repr

/-- Responses of the serve handler: the CORS preflight reply, the 405
reply, the 200 success body carrying the three counters, and the 500 error
body carrying the error message. -/
inductive ServeResponse where
  | cors
  | methodNotAllowed
  | success (stats : Stats)
  | failure (msg : String)
deriving DecidableEq, Repr

/-- The serve handler: method dispatch, configuration check, then the run;
a thrown configuration error is caught and returned as a failure body.
Returns the response, the final state and the emitted actions. -/
def handleRequest (c : Config) (w : World) (s : St) (m : HttpMethod) :
    ServeResponse × St × List Action :=
  match m with
  | .options => (.cors, s, [])
  | .other => (.methodNotAllowed, s, [])
  | .post =>
    match configError c with
    | some msg => (.failure msg, s, [])
    | none =>
      let r := syncEventsAndNotify w s
      (.success r.stats, r.st, r.tr)

/-- Outcome of one HTTP attempt inside the mobile client's fetchWithRetry:
a response with a status code, or the fetch call throwing. -/
inductive HttpAttempt where
  | status (code : Nat)
  | netErr
deriving DecidableEq, Repr

/-- fetchWithRetry of the mobile Ticketmaster client.  attempts gives the
outcome of the n-th HTTP attempt; k is the index of the current attempt;
the remaining two arguments are the retries and delay parameters (defaults
3 and 1000).  Returns the result surfaced to the caller (ok status, or the
thrown error's message) together with the list of backoff waits performed:
on 429 or a network error it waits the current delay and retries with the
delay doubled, and once retries are exhausted the error is thrown. -/
def fetchWithRetry (attempts : Nat → HttpAttempt) : Nat → Nat → Nat → Except String Nat × List Nat
  | k, 0, _ =>
    match attempts k with
    | .status 429 => (.error "Rate limit exceeded after retries", [])
    | .status c => (.ok c, [])
    | .netErr => (.error "network error", [])
  | k, r + 1, d =>
    match attempts k with
    | .status 429 =>
      let p := fetchWithRetry attempts (k + 1) r (d * 2)
      (p.1, d :: p.2)
    | .status c => (.ok c, [])
    | .netErr =>
      let p := fetchWithRetry attempts (k + 1) r (d * 2)
      (p.1, d :: p.2)

/-- The actions of one follower step when the process dies between the
dispatcher call and recordSentNotification: the ledger check and the send
happen, the state is left unchanged. -/
def processUserNoRecord (w : World) (ev : KnownEvent) (s : St) (u : String × String) : List Action :=
  if wasNotificationSent s u.1 ev.id then [.queryLedger u.1 ev.id]
  else if w.sendOk u.1 ev.id then [.queryLedger u.1 ev.id, .send u.1 ev.id true]
  else [.queryLedger u.1 ev.id, .send u.1 ev.id false]

/-- One event of the notify phase interrupted after kUser follower steps;
when half is set the next follower's step dies between its send and its
record.  The interrupted event is never marked. -/
def processEventCut (w : World) (s : St) (ev : KnownEvent) (kUser : Nat) (half : Bool) : St × List Action :=
  let users := getUsersFollowingArtist s ev.artist_id
  let r := processUsers w ev s (users.take kUser)
  match half, users.drop kUser with
  | true, u :: _ => (r.st, [.queryFollowers ev.artist_id] ++ r.tr ++ processUserNoRecord w ev r.st u)
  | _, _ => (r.st, [.queryFollowers ev.artist_id] ++ r.tr)

/-- Notify phase interrupted after kEv fully processed events, partway
through the next one. -/
def notifyPhaseCut (w : World) (s : St) (kEv kUser : Nat) (half : Bool) : St × List Action :=
  let unnotified := getUnnotifiedEvents s
  let r := processEvents w s (unnotified.take kEv)
  match unnotified.drop kEv with
  | ev :: _ =>
    let p := processEventCut w r.st ev kUser half
    (p.1, [.queryUnnotified] ++ r.tr ++ p.2)
  | [] => (r.st, [.queryUnnotified] ++ r.tr)

/-- Discover phase interrupted after kA artists, kE events into the next
artist's list. -/
def discoverCut (w : World) (s : St) (kA kE : Nat) : St × List Action :=
  let ids := getUniqueArtistIds s
  let r := discoverArtists w s (ids.take kA)
  match ids.drop kA with
  | a :: _ =>
    let p := processTMEvents r.st a ((fetchEventsForArtist (w.fetchRes a)).take kE)
    (p.st, [.queryArtists] ++ r.tr ++ [.fetch a] ++ p.tr)
  | [] => (r.st, [.queryArtists] ++ r.tr)

/-- Shape of one orchestrator invocation: a completed run, a run that died
during the discover loop, or a run that died during the notify fan-out. -/
inductive RunSpec where
  | full
  | stopInDiscover (kA kE : Nat)
  | stopInNotify (kEv kUser : Nat) (half : Bool)

/-- Execute one (possibly interrupted) run. -/
def execRun (w : World) (s : St) : RunSpec → St × List Action
  | .full =>
    let r := syncEventsAndNotify w s
    (r.st, r.tr)
  | .stopInDiscover kA kE => discoverCut w s kA kE
  | .stopInNotify kEv kUser half =>
    let d := discoverPhase w s
    let p := notifyPhaseCut w d.st kEv kUser half
    (p.1, d.tr ++ p.2)

/-- Execute a sequence of runs, each with its own world and interruption
point, concatenating the traces. -/
def execRuns (s : St) : List (World × RunSpec) → St × List Action
  | [] => (s, [])
  | (w, r) :: rest =>
    let p := execRun w s r
    let q := execRuns p.1 rest
    (q.1, p.2 ++ q.2)

/-- Number of recordNotified invocations for one (user, event) pair in a
trace. -/
def recCount (uid : String) (eid : Nat) (tr : List Action) : Nat :=
  tr.countP (fun a => decide (a = Action.record uid eid))

/-- 1 when the (user, event) pair is in the sent_notifications ledger. -/
def ledgerInd (uid : String) (eid : Nat) (s : St) : Nat :=
  if (uid, eid) ∈ s.ledger then 1 else 0

/-- A record action is acceptable only right after a successful send for
the same (user, event) pair; any other action is always acceptable. -/
def recOkAfter (prev : Option Action) (a : Action) : Bool :=
  match a with
  | Action.record u e => decide (prev = some (Action.send u e true))
  | _ => true

/-- Every record action is immediately preceded by a successful send for
the same (user, event) pair; prev is the action before the scanned list. -/
def recordsAfterSuccess : Option Action → List Action → Bool
  | _, [] => true
  | prev, a :: rest => recOkAfter prev a && recordsAfterSuccess (some a) rest

/-! ### Preservation lemmas: which parts of the state each phase leaves
unchanged. -/

theorem ledgerInd_le_one (uid : String) (eid : Nat) (s : St) : ledgerInd uid eid s ≤ 1 := by
  unfold ledgerInd; split <;> simp

theorem processUser_ext (w : World) (ev : KnownEvent) (s : St) (u : String × String) :
    (processUser w ev s u).st.users = s.users ∧
    (processUser w ev s u).st.userArtists = s.userArtists ∧
    (processUser w ev s u).st.events = s.events ∧
    (processUser w ev s u).st.nextId = s.nextId := by
  unfold processUser
  split
  · exact ⟨rfl, rfl, rfl, rfl⟩
  · split
    · exact ⟨rfl, rfl, rfl, rfl⟩
    · exact ⟨rfl, rfl, rfl, rfl⟩

theorem processUsers_ext (w : World) (ev : KnownEvent) (us : List (String × String)) :
    ∀ s : St, (processUsers w ev s us).st.users = s.users ∧
      (processUsers w ev s us).st.userArtists = s.userArtists ∧
      (processUsers w ev s us).st.events = s.events ∧
      (processUsers w ev s us).st.nextId = s.nextId := by
  induction us with
  | nil => exact fun s => ⟨rfl, rfl, rfl, rfl⟩
  | cons u rest ih =>
    intro s
    have h1 := processUser_ext w ev s u
    have h2 := ih (processUser w ev s u).st
    exact ⟨h2.1.trans h1.1, h2.2.1.trans h1.2.1, h2.2.2.1.trans h1.2.2.1,
      h2.2.2.2.trans h1.2.2.2⟩

theorem markEventAsNotified_ext (s : St) (eid : Nat) :
    (markEventAsNotified s eid).users = s.users ∧
    (markEventAsNotified s eid).userArtists = s.userArtists ∧
    (markEventAsNotified s eid).ledger = s.ledger ∧
    (markEventAsNotified s eid).nextId = s.nextId :=
  ⟨rfl, rfl, rfl, rfl⟩

theorem processEvent_ext (w : World) (s : St) (ev : KnownEvent) :
    (processEvent w s ev).st.users = s.users ∧
    (processEvent w s ev).st.userArtists = s.userArtists ∧
    (processEvent w s ev).st.nextId = s.nextId := by
  unfold processEvent
  have h := processUsers_ext w ev (getUsersFollowingArtist s ev.artist_id) s
  dsimp only
  split
  · exact ⟨h.1, h.2.1, h.2.2.2⟩
  · exact ⟨h.1, h.2.1, h.2.2.2⟩

theorem processEvents_ext (w : World) (l : List KnownEvent) :
    ∀ s : St, (processEvents w s l).st.users = s.users ∧
      (processEvents w s l).st.userArtists = s.userArtists ∧
      (processEvents w s l).st.nextId = s.nextId := by
  induction l with
  | nil => exact fun s => ⟨rfl, rfl, rfl⟩
  | cons ev rest ih =>
    intro s
    have h1 := processEvent_ext w s ev
    have h2 := ih (processEvent w s ev).st
    exact ⟨h2.1.trans h1.1, h2.2.1.trans h1.2.1, h2.2.2.trans h1.2.2⟩

theorem notifyPhase_ext (w : World) (s : St) :
    (notifyPhase w s).st.users = s.users ∧
    (notifyPhase w s).st.userArtists = s.userArtists ∧
    (notifyPhase w s).st.nextId = s.nextId :=
  processEvents_ext w (getUnnotifiedEvents s) s

theorem processTMEvent_ext (s : St) (a : String) (e : TMEvent) :
    (processTMEvent s a e).st.users = s.users ∧
    (processTMEvent s a e).st.userArtists = s.userArtists ∧
    (processTMEvent s a e).st.ledger = s.ledger := by
  unfold processTMEvent
  split
  · exact ⟨rfl, rfl, rfl⟩
  · exact ⟨rfl, rfl, rfl⟩

theorem processTMEvents_ext (a : String) (l : List TMEvent) :
    ∀ s : St, (processTMEvents s a l).st.users = s.users ∧
      (processTMEvents s a l).st.userArtists = s.userArtists ∧
      (processTMEvents s a l).st.ledger = s.ledger := by
  induction l with
  | nil => exact fun s => ⟨rfl, rfl, rfl⟩
  | cons e rest ih =>
    intro s
    have h1 := processTMEvent_ext s a e
    have h2 := ih (processTMEvent s a e).st
    exact ⟨h2.1.trans h1.1, h2.2.1.trans h1.2.1, h2.2.2.trans h1.2.2⟩

theorem discoverArtists_ext (w : World) (ids : List String) :
    ∀ s : St, (discoverArtists w s ids).st.users = s.users ∧
      (discoverArtists w s ids).st.userArtists = s.userArtists ∧
      (discoverArtists w s ids).st.ledger = s.ledger := by
  induction ids with
  | nil => exact fun s => ⟨rfl, rfl, rfl⟩
  | cons a rest ih =>
    intro s
    have h1 := processTMEvents_ext a (fetchEventsForArtist (w.fetchRes a)) s
    have h2 := ih (discoverArtist w s a).st
    exact ⟨h2.1.trans h1.1, h2.2.1.trans h1.2.1, h2.2.2.trans h1.2.2⟩

theorem discoverPhase_ext (w : World) (s : St) :
    (discoverPhase w s).st.users = s.users ∧
    (discoverPhase w s).st.userArtists = s.userArtists ∧
    (discoverPhase w s).st.ledger = s.ledger :=
  discoverArtists_ext w (getUniqueArtistIds s) s

theorem syncEventsAndNotify_ext (w : World) (s : St) :
    (syncEventsAndNotify w s).st.users = s.users ∧
    (syncEventsAndNotify w s).st.userArtists = s.userArtists := by
  have h1 := discoverPhase_ext w s
  have h2 := notifyPhase_ext w (discoverPhase w s).st
  exact ⟨h2.1.trans h1.1, h2.2.1.trans h1.2.1⟩

/-- getUsersFollowingArtist reads only the users and user_artists
relations. -/
theorem getUsersFollowingArtist_congr {s s' : St} (a : String)
    (hu : s'.users = s.users) (ha : s'.userArtists = s.userArtists) :
    getUsersFollowingArtist s' a = getUsersFollowingArtist s a := by
  unfold getUsersFollowingArtist
  rw [hu, ha]

/-! ### Ledger accounting: the count of record actions for a pair equals
the change of that pair's ledger membership indicator, so each pair is
recorded at most once no matter how runs are cut and restarted. -/

theorem recCount_append (uid : String) (eid : Nat) (t1 t2 : List Action) :
    recCount uid eid (t1 ++ t2) = recCount uid eid t1 + recCount uid eid t2 :=
  List.countP_append _ _ _

theorem ledger_processUser (uid : String) (eid : Nat) (w : World) (ev : KnownEvent)
    (s : St) (u : String × String) :
    ledgerInd uid eid (processUser w ev s u).st =
      ledgerInd uid eid s + recCount uid eid (processUser w ev s u).tr := by
  unfold processUser
  split
  · simp [recCount, ledgerInd]
  · split
    · rename_i hsent hok
      unfold wasNotificationSent at hsent
      simp only [Bool.not_eq_true, decide_eq_false_iff_not] at hsent
      dsimp only
      by_cases hpair : (uid, eid) = (u.1, ev.id)
      · injection hpair with h1 h2
        subst h1
        subst h2
        simp [recCount, ledgerInd, recordSentNotification, hsent]
      · have hne : Action.record u.1 ev.id ≠ Action.record uid eid := by
          intro h
          injection h with h1 h2
          exact hpair (by rw [h1, h2])
        have hcnt : recCount uid eid
            [Action.queryLedger u.1 ev.id, Action.send u.1 ev.id true, Action.record u.1 ev.id] = 0 := by
          unfold recCount
          rw [List.countP_eq_zero]
          intro a ha
          simp only [List.mem_cons, List.not_mem_nil, or_false] at ha
          rcases ha with rfl | rfl | rfl <;> simp_all
        have hmem : ledgerInd uid eid (recordSentNotification s u.1 ev.id) = ledgerInd uid eid s := by
          unfold ledgerInd recordSentNotification
          have hiff : ((uid, eid) ∈ s.ledger ++ [(u.1, ev.id)]) ↔ (uid, eid) ∈ s.ledger := by
            simp [List.mem_append, hpair]
          rw [if_congr hiff rfl rfl]
        rw [hmem, hcnt, Nat.add_zero]
    · simp [recCount, ledgerInd]

theorem ledger_processUsers (uid : String) (eid : Nat) (w : World) (ev : KnownEvent)
    (us : List (String × String)) : ∀ s : St,
    ledgerInd uid eid (processUsers w ev s us).st =
      ledgerInd uid eid s + recCount uid eid (processUsers w ev s us).tr := by
  induction us with
  | nil => intro s; simp [processUsers, recCount]
  | cons u rest ih =>
    intro s
    have h1 := ledger_processUser uid eid w ev s u
    have h2 := ih (processUser w ev s u).st
    show ledgerInd uid eid (processUsers w ev (processUser w ev s u).st rest).st =
      ledgerInd uid eid s + recCount uid eid ((processUser w ev s u).tr ++ (processUsers w ev (processUser w ev s u).st rest).tr)
    rw [recCount_append, h2, h1]
    omega

theorem ledger_processEvent (uid : String) (eid : Nat) (w : World) (s : St) (ev : KnownEvent) :
    ledgerInd uid eid (processEvent w s ev).st =
      ledgerInd uid eid s + recCount uid eid (processEvent w s ev).tr := by
  unfold processEvent
  have h := ledger_processUsers uid eid w ev (getUsersFollowingArtist s ev.artist_id) s
  dsimp only
  split
  · show ledgerInd uid eid (markEventAsNotified _ ev.id) = _
    have hm : ledgerInd uid eid (markEventAsNotified (processUsers w ev s (getUsersFollowingArtist s ev.artist_id)).st ev.id) =
        ledgerInd uid eid (processUsers w ev s (getUsersFollowingArtist s ev.artist_id)).st := rfl
    rw [hm, h, recCount_append, recCount_append]
    simp [recCount]
  · rw [h, recCount_append]
    simp [recCount]

theorem ledger_processEvents (uid : String) (eid : Nat) (w : World) (l : List KnownEvent) :
    ∀ s : St, ledgerInd uid eid (processEvents w s l).st =
      ledgerInd uid eid s + recCount uid eid (processEvents w s l).tr := by
  induction l with
  | nil => intro s; simp [processEvents, recCount]
  | cons ev rest ih =>
    intro s
    have h1 := ledger_processEvent uid eid w s ev
    have h2 := ih (processEvent w s ev).st
    show ledgerInd uid eid (processEvents w (processEvent w s ev).st rest).st =
      ledgerInd uid eid s + recCount uid eid ((processEvent w s ev).tr ++ (processEvents w (processEvent w s ev).st rest).tr)
    rw [recCount_append, h2, h1]
    omega

theorem ledger_notifyPhase (uid : String) (eid : Nat) (w : World) (s : St) :
    ledgerInd uid eid (notifyPhase w s).st =
      ledgerInd uid eid s + recCount uid eid (notifyPhase w s).tr := by
  unfold notifyPhase
  have h := ledger_processEvents uid eid w (getUnnotifiedEvents s) s
  dsimp only
  rw [h]
  simp [recCount]

theorem recCount_no_record (uid : String) (eid : Nat) (tr : List Action)
    (h : ∀ a ∈ tr, ∀ u e, a ≠ Action.record u e) : recCount uid eid tr = 0 := by
  unfold recCount
  rw [List.countP_eq_zero]
  intro a ha
  simp only [decide_eq_true_eq]
  exact h a ha uid eid

theorem processTMEvents_no_record (a : String) (l : List TMEvent) :
    ∀ s : St, ∀ x ∈ (processTMEvents s a l).tr, ∀ u e, x ≠ Action.record u e := by
  induction l with
  | nil => intro s x hx; simp [processTMEvents] at hx
  | cons ev rest ih =>
    intro s x hx u e
    have hx' : x ∈ (processTMEvent s a ev).tr ∨ x ∈ (processTMEvents (processTMEvent s a ev).st a rest).tr := by
      simpa [processTMEvents] using List.mem_append.mp hx
    rcases hx' with h | h
    · unfold processTMEvent at h
      split at h
      · simp only [List.mem_singleton] at h
        subst h; simp
      · simp only [List.mem_cons, List.not_mem_nil, or_false] at h
        rcases h with h | h <;> subst h <;> simp
    · exact ih (processTMEvent s a ev).st x h u e

theorem discoverArtists_no_record (w : World) (ids : List String) :
    ∀ s : St, ∀ x ∈ (discoverArtists w s ids).tr, ∀ u e, x ≠ Action.record u e := by
  induction ids with
  | nil => intro s x hx; simp [discoverArtists] at hx
  | cons a rest ih =>
    intro s x hx u e
    have hx' : x ∈ (discoverArtist w s a).tr ∨ x ∈ (discoverArtists w (discoverArtist w s a).st rest).tr := by
      simpa [discoverArtists] using List.mem_append.mp hx
    rcases hx' with h | h
    · unfold discoverArtist at h
      dsimp only at h
      rcases List.mem_cons.mp h with h | h
      · simp [h]
      · exact processTMEvents_no_record a (fetchEventsForArtist (w.fetchRes a)) s x h u e
    · exact ih (discoverArtist w s a).st x h u e

theorem ledger_discoverPhase (uid : String) (eid : Nat) (w : World) (s : St) :
    ledgerInd uid eid (discoverPhase w s).st =
      ledgerInd uid eid s + recCount uid eid (discoverPhase w s).tr := by
  have hl : (discoverPhase w s).st.ledger = s.ledger := (discoverPhase_ext w s).2.2
  have hz : recCount uid eid (discoverPhase w s).tr = 0 := by
    apply recCount_no_record
    intro a ha u e
    unfold discoverPhase at ha
    dsimp only at ha
    rcases List.mem_cons.mp ha with h | h
    · simp [h]
    · exact discoverArtists_no_record w (getUniqueArtistIds s) s a h u e
  rw [hz, Nat.add_zero]
  unfold ledgerInd
  rw [hl]

theorem ledger_syncEventsAndNotify (uid : String) (eid : Nat) (w : World) (s : St) :
    ledgerInd uid eid (syncEventsAndNotify w s).st =
      ledgerInd uid eid s + recCount uid eid (syncEventsAndNotify w s).tr := by
  unfold syncEventsAndNotify
  dsimp only
  rw [recCount_append, ledger_notifyPhase, ledger_discoverPhase]
  omega

theorem processUserNoRecord_no_record (w : World) (ev : KnownEvent) (s : St) (u : String × String) :
    ∀ x ∈ processUserNoRecord w ev s u, ∀ u' e', x ≠ Action.record u' e' := by
  intro x hx u' e'
  unfold processUserNoRecord at hx
  split at hx
  · simp only [List.mem_singleton] at hx
    subst hx; simp
  · split at hx <;>
      simp only [List.mem_cons, List.not_mem_nil, or_false] at hx <;>
      rcases hx with hx | hx <;> subst hx <;> simp

theorem ledger_processEventCut (uid : String) (eid : Nat) (w : World) (s : St)
    (ev : KnownEvent) (kUser : Nat) (half : Bool) :
    ledgerInd uid eid (processEventCut w s ev kUser half).1 =
      ledgerInd uid eid s + recCount uid eid (processEventCut w s ev kUser half).2 := by
  unfold processEventCut
  dsimp only
  have h := ledger_processUsers uid eid w ev
    ((getUsersFollowingArtist s ev.artist_id).take kUser) s
  have hqf : recCount uid eid [Action.queryFollowers ev.artist_id] = 0 := by simp [recCount]
  split
  · rename_i u rest heq
    rw [recCount_append, recCount_append, h, hqf,
      recCount_no_record uid eid _ (processUserNoRecord_no_record w ev _ u)]
    omega
  · rw [recCount_append, h, hqf]
    omega

theorem ledger_notifyPhaseCut (uid : String) (eid : Nat) (w : World) (s : St)
    (kEv kUser : Nat) (half : Bool) :
    ledgerInd uid eid (notifyPhaseCut w s kEv kUser half).1 =
      ledgerInd uid eid s + recCount uid eid (notifyPhaseCut w s kEv kUser half).2 := by
  unfold notifyPhaseCut
  dsimp only
  have h := ledger_processEvents uid eid w ((getUnnotifiedEvents s).take kEv) s
  have hqu : recCount uid eid [Action.queryUnnotified] = 0 := by simp [recCount]
  split
  · rename_i ev rest heq
    rw [recCount_append, recCount_append, ledger_processEventCut, h, hqu]
    omega
  · rw [recCount_append, h, hqu]
    omega

theorem ledger_discoverCut (uid : String) (eid : Nat) (w : World) (s : St) (kA kE : Nat) :
    ledgerInd uid eid (discoverCut w s kA kE).1 =
      ledgerInd uid eid s + recCount uid eid (discoverCut w s kA kE).2 := by
  unfold discoverCut
  dsimp only
  have hl1 := (discoverArtists_ext w ((getUniqueArtistIds s).take kA) s).2.2
  have hn1 := discoverArtists_no_record w ((getUniqueArtistIds s).take kA) s
  split
  · rename_i a rest heq
    have hl2 := (processTMEvents_ext a ((fetchEventsForArtist (w.fetchRes a)).take kE)
      (discoverArtists w s ((getUniqueArtistIds s).take kA)).st).2.2
    have hn2 := processTMEvents_no_record a ((fetchEventsForArtist (w.fetchRes a)).take kE)
      (discoverArtists w s ((getUniqueArtistIds s).take kA)).st
    have hz1 : recCount uid eid (discoverArtists w s ((getUniqueArtistIds s).take kA)).tr = 0 :=
      recCount_no_record uid eid _ hn1
    have hz2 : recCount uid eid (processTMEvents
        (discoverArtists w s ((getUniqueArtistIds s).take kA)).st a
        ((fetchEventsForArtist (w.fetchRes a)).take kE)).tr = 0 :=
      recCount_no_record uid eid _ hn2
    have hled : ledgerInd uid eid (processTMEvents
        (discoverArtists w s ((getUniqueArtistIds s).take kA)).st a
        ((fetchEventsForArtist (w.fetchRes a)).take kE)).st = ledgerInd uid eid s := by
      unfold ledgerInd
      rw [hl2, hl1]
    have hqa : recCount uid eid [Action.queryArtists] = 0 := by simp [recCount]
    have hf : recCount uid eid [Action.fetch a] = 0 := by simp [recCount]
    rw [hled, recCount_append, recCount_append, recCount_append, hz1, hz2, hqa, hf]
    omega
  · have hled : ledgerInd uid eid (discoverArtists w s ((getUniqueArtistIds s).take kA)).st =
        ledgerInd uid eid s := by
      unfold ledgerInd
      rw [hl1]
    have hz1 : recCount uid eid (discoverArtists w s ((getUniqueArtistIds s).take kA)).tr = 0 :=
      recCount_no_record uid eid _ hn1
    have hqa : recCount uid eid [Action.queryArtists] = 0 := by simp [recCount]
    rw [hled, recCount_append, hz1, hqa]
    omega

theorem ledger_execRun (uid : String) (eid : Nat) (w : World) (s : St) (r : RunSpec) :
    ledgerInd uid eid (execRun w s r).1 =
      ledgerInd uid eid s + recCount uid eid (execRun w s r).2 := by
  cases r with
  | full => exact ledger_syncEventsAndNotify uid eid w s
  | stopInDiscover kA kE => exact ledger_discoverCut uid eid w s kA kE
  | stopInNotify kEv kUser half =>
    show ledgerInd uid eid (notifyPhaseCut w (discoverPhase w s).st kEv kUser half).1 =
      ledgerInd uid eid s + recCount uid eid ((discoverPhase w s).tr ++ (notifyPhaseCut w (discoverPhase w s).st kEv kUser half).2)
    rw [recCount_append, ledger_notifyPhaseCut, ledger_discoverPhase]
    omega

theorem ledger_execRuns (uid : String) (eid : Nat) (runs : List (World × RunSpec)) :
    ∀ s : St, ledgerInd uid eid (execRuns s runs).1 =
      ledgerInd uid eid s + recCount uid eid (execRuns s runs).2 := by
  induction runs with
  | nil => intro s; simp [execRuns, recCount]
  | cons p rest ih =>
    intro s
    show ledgerInd uid eid (execRuns (execRun p.1 s p.2).1 rest).1 =
      ledgerInd uid eid s + recCount uid eid ((execRun p.1 s p.2).2 ++ (execRuns (execRun p.1 s p.2).1 rest).2)
    rw [recCount_append, ih, ledger_execRun]
    omega

/-! ### Every record action follows a successful send for its pair. -/

theorem recOkAfter_of_ne (prev : Option Action) (a : Action)
    (h : ∀ u e, a ≠ Action.record u e) : recOkAfter prev a = true := by
  cases a with
  | record u e => exact absurd rfl (h u e)
  | queryArtists => rfl
  | fetch x => rfl
  | queryExists x => rfl
  | insert x => rfl
  | queryUnnotified => rfl
  | queryFollowers x => rfl
  | queryLedger x y => rfl
  | send x y b => rfl
  | mark x => rfl

theorem rAS_cons (prev : Option Action) (a : Action) (rest : List Action) :
    recordsAfterSuccess prev (a :: rest) =
      (recOkAfter prev a && recordsAfterSuccess (some a) rest) := rfl

theorem rAS_of_no_record : ∀ t : List Action, (∀ a ∈ t, ∀ u e, a ≠ Action.record u e) →
    ∀ prev, recordsAfterSuccess prev t = true := by
  intro t
  induction t with
  | nil => intro _ prev; rfl
  | cons a rest ih =>
    intro h prev
    rw [rAS_cons, Bool.and_eq_true]
    exact ⟨recOkAfter_of_ne prev a (h a (List.mem_cons_self a rest)),
      ih (fun x hx => h x (List.mem_cons_of_mem a hx)) (some a)⟩

theorem rAS_append (t1 t2 : List Action) (h2 : ∀ prev, recordsAfterSuccess prev t2 = true) :
    ∀ prev, recordsAfterSuccess prev t1 = true → recordsAfterSuccess prev (t1 ++ t2) = true := by
  induction t1 with
  | nil => intro prev _; exact h2 prev
  | cons a rest ih =>
    intro prev h1
    rw [List.cons_append, rAS_cons, Bool.and_eq_true]
    rw [rAS_cons, Bool.and_eq_true] at h1
    exact ⟨h1.1, ih (some a) h1.2⟩

theorem rAS_processUser (w : World) (ev : KnownEvent) (s : St) (u : String × String) :
    ∀ prev, recordsAfterSuccess prev (processUser w ev s u).tr = true := by
  intro prev
  unfold processUser
  split
  · simp [recordsAfterSuccess, recOkAfter]
  · split <;> simp [recordsAfterSuccess, recOkAfter]

theorem rAS_processUsers (w : World) (ev : KnownEvent) (us : List (String × String)) :
    ∀ s : St, ∀ prev, recordsAfterSuccess prev (processUsers w ev s us).tr = true := by
  induction us with
  | nil => intro s prev; rfl
  | cons u rest ih =>
    intro s prev
    exact rAS_append _ _ (ih (processUser w ev s u).st) prev (rAS_processUser w ev s u prev)

theorem rAS_processEvent (w : World) (s : St) (ev : KnownEvent) :
    ∀ prev, recordsAfterSuccess prev (processEvent w s ev).tr = true := by
  intro prev
  unfold processEvent
  dsimp only
  split
  · show recordsAfterSuccess prev (Action.queryFollowers ev.artist_id :: (_ ++ [Action.mark ev.id])) = true
    unfold recordsAfterSuccess
    rw [Bool.and_eq_true]
    refine ⟨rfl, ?_⟩
    exact rAS_append _ _ (fun p => by simp [recordsAfterSuccess, recOkAfter]) _
      (rAS_processUsers w ev _ s _)
  · show recordsAfterSuccess prev (Action.queryFollowers ev.artist_id :: _) = true
    unfold recordsAfterSuccess
    rw [Bool.and_eq_true]
    exact ⟨rfl, rAS_processUsers w ev _ s _⟩

theorem rAS_processEvents (w : World) (l : List KnownEvent) :
    ∀ s : St, ∀ prev, recordsAfterSuccess prev (processEvents w s l).tr = true := by
  induction l with
  | nil => intro s prev; rfl
  | cons ev rest ih =>
    intro s prev
    exact rAS_append _ _ (ih (processEvent w s ev).st) prev (rAS_processEvent w s ev prev)

theorem rAS_notifyPhase (w : World) (s : St) :
    ∀ prev, recordsAfterSuccess prev (notifyPhase w s).tr = true := by
  intro prev
  show recordsAfterSuccess prev (Action.queryUnnotified :: _) = true
  unfold recordsAfterSuccess
  rw [Bool.and_eq_true]
  exact ⟨rfl, rAS_processEvents w (getUnnotifiedEvents s) s _⟩

theorem rAS_discoverPhase (w : World) (s : St) :
    ∀ prev, recordsAfterSuccess prev (discoverPhase w s).tr = true := by
  intro prev
  apply rAS_of_no_record
  intro a ha u e
  unfold discoverPhase at ha
  dsimp only at ha
  rcases List.mem_cons.mp ha with h | h
  · simp [h]
  · exact discoverArtists_no_record w (getUniqueArtistIds s) s a h u e

theorem rAS_syncEventsAndNotify (w : World) (s : St) :
    ∀ prev, recordsAfterSuccess prev (syncEventsAndNotify w s).tr = true := by
  intro prev
  show recordsAfterSuccess prev ((discoverPhase w s).tr ++ (notifyPhase w (discoverPhase w s).st).tr) = true
  exact rAS_append _ _ (rAS_notifyPhase w (discoverPhase w s).st) prev (rAS_discoverPhase w s prev)

theorem rAS_processEventCut (w : World) (s : St) (ev : KnownEvent) (kUser : Nat) (half : Bool) :
    ∀ prev, recordsAfterSuccess prev (processEventCut w s ev kUser half).2 = true := by
  intro prev
  unfold processEventCut
  dsimp only
  split
  · rename_i u rest heq
    show recordsAfterSuccess prev (Action.queryFollowers ev.artist_id :: (_ ++ _)) = true
    unfold recordsAfterSuccess
    rw [Bool.and_eq_true]
    refine ⟨rfl, ?_⟩
    exact rAS_append _ _
      (rAS_of_no_record _ (processUserNoRecord_no_record w ev _ u)) _
      (rAS_processUsers w ev _ s _)
  · show recordsAfterSuccess prev (Action.queryFollowers ev.artist_id :: _) = true
    unfold recordsAfterSuccess
    rw [Bool.and_eq_true]
    exact ⟨rfl, rAS_processUsers w ev _ s _⟩

theorem rAS_notifyPhaseCut (w : World) (s : St) (kEv kUser : Nat) (half : Bool) :
    ∀ prev, recordsAfterSuccess prev (notifyPhaseCut w s kEv kUser half).2 = true := by
  intro prev
  unfold notifyPhaseCut
  dsimp only
  split
  · rename_i ev rest heq
    show recordsAfterSuccess prev (Action.queryUnnotified :: (_ ++ _)) = true
    unfold recordsAfterSuccess
    rw [Bool.and_eq_true]
    refine ⟨rfl, ?_⟩
    exact rAS_append _ _ (fun p => rAS_processEventCut w _ ev kUser half p) _
      (rAS_processEvents w _ s _)
  · show recordsAfterSuccess prev (Action.queryUnnotified :: _) = true
    unfold recordsAfterSuccess
    rw [Bool.and_eq_true]
    exact ⟨rfl, rAS_processEvents w _ s _⟩

theorem rAS_discoverCut (w : World) (s : St) (kA kE : Nat) :
    ∀ prev, recordsAfterSuccess prev (discoverCut w s kA kE).2 = true := by
  intro prev
  apply rAS_of_no_record
  intro a ha u e
  unfold discoverCut at ha
  dsimp only at ha
  split at ha
  · rename_i aid rest heq
    simp only [List.append_assoc, List.cons_append, List.nil_append, List.mem_cons,
      List.mem_append] at ha
    rcases ha with h | h
    · simp [h]
    rcases h with h | h
    · exact discoverArtists_no_record w _ s a h u e
    rcases h with h | h
    · simp [h]
    · exact processTMEvents_no_record aid _ _ a h u e
  · rcases List.mem_cons.mp ha with h | h
    · simp [h]
    · exact discoverArtists_no_record w _ s a h u e

theorem rAS_execRun (w : World) (s : St) (r : RunSpec) :
    ∀ prev, recordsAfterSuccess prev (execRun w s r).2 = true := by
  intro prev
  cases r with
  | full => exact rAS_syncEventsAndNotify w s prev
  | stopInDiscover kA kE => exact rAS_discoverCut w s kA kE prev
  | stopInNotify kEv kUser half =>
    show recordsAfterSuccess prev ((discoverPhase w s).tr ++ _) = true
    exact rAS_append _ _ (rAS_notifyPhaseCut w (discoverPhase w s).st kEv kUser half) prev
      (rAS_discoverPhase w s prev)

theorem rAS_execRuns (runs : List (World × RunSpec)) :
    ∀ s : St, ∀ prev, recordsAfterSuccess prev (execRuns s runs).2 = true := by
  induction runs with
  | nil => intro s prev; rfl
  | cons p rest ih =>
    intro s prev
    exact rAS_append _ _ (ih (execRun p.1 s p.2).1) prev (rAS_execRun p.1 s p.2 prev)

/-- C1: At-most-once notification.  Across any sequence of orchestrator
runs from any initial state — each run with its own upstream world, whether
completed or interrupted during the discover loop or mid-fan-out (including
between a successful send and its ledger insert) — recordSentNotification
is invoked at most once for every (user, event) pair, and every record
action is immediately preceded by the dispatcher's successful send for that
same pair. -/
theorem c1_at_most_once_notification (s0 : St) (runs : List (World × RunSpec))
    (uid : String) (eid : Nat) :
    recCount uid eid (execRuns s0 runs).2 ≤ 1 ∧
    recordsAfterSuccess none (execRuns s0 runs).2 = true := by
  constructor
  · have h := ledger_execRuns uid eid runs s0
    have hle := ledgerInd_le_one uid eid (execRuns s0 runs).1
    omega
  · exact rAS_execRuns runs s0 none

/-! ### The event-marking rule of the notify phase. -/

theorem processUser_ok_iff (w : World) (ev : KnownEvent) (s : St) (u : String × String) :
    (processUser w ev s u).ok = true ↔
      ∃ uid, Action.send uid ev.id true ∈ (processUser w ev s u).tr := by
  unfold processUser
  split
  · simp
  · split
    · simp
    · simp

theorem processUsers_ok_iff (w : World) (ev : KnownEvent) (us : List (String × String)) :
    ∀ s : St, ((processUsers w ev s us).ok = true ↔
      ∃ uid, Action.send uid ev.id true ∈ (processUsers w ev s us).tr) := by
  induction us with
  | nil => intro s; simp [processUsers]
  | cons u rest ih =>
    intro s
    have h1 := processUser_ok_iff w ev s u
    have h2 := ih (processUser w ev s u).st
    show ((processUser w ev s u).ok || (processUsers w ev (processUser w ev s u).st rest).ok) = true ↔
      ∃ uid, Action.send uid ev.id true ∈
        (processUser w ev s u).tr ++ (processUsers w ev (processUser w ev s u).st rest).tr
    rw [Bool.or_eq_true, h1, h2]
    constructor
    · rintro (⟨uid, h⟩ | ⟨uid, h⟩)
      · exact ⟨uid, List.mem_append.mpr (Or.inl h)⟩
      · exact ⟨uid, List.mem_append.mpr (Or.inr h)⟩
    · rintro ⟨uid, h⟩
      rcases List.mem_append.mp h with h | h
      · exact Or.inl ⟨uid, h⟩
      · exact Or.inr ⟨uid, h⟩

theorem processUser_no_mark (w : World) (ev : KnownEvent) (s : St) (u : String × String) :
    ∀ x ∈ (processUser w ev s u).tr, ∀ e, x ≠ Action.mark e := by
  intro x hx e
  unfold processUser at hx
  split at hx
  · simp only [List.mem_singleton] at hx
    subst hx; simp
  · split at hx
    · simp only [List.mem_cons, List.not_mem_nil, or_false] at hx
      rcases hx with hx | hx | hx <;> (subst hx; simp)
    · simp only [List.mem_cons, List.not_mem_nil, or_false] at hx
      rcases hx with hx | hx <;> (subst hx; simp)

theorem processUsers_no_mark (w : World) (ev : KnownEvent) (us : List (String × String)) :
    ∀ s : St, ∀ x ∈ (processUsers w ev s us).tr, ∀ e, x ≠ Action.mark e := by
  induction us with
  | nil => intro s x hx; simp [processUsers] at hx
  | cons u rest ih =>
    intro s x hx e
    have hx' : x ∈ (processUser w ev s u).tr ∨
        x ∈ (processUsers w ev (processUser w ev s u).st rest).tr := by
      simpa [processUsers] using List.mem_append.mp hx
    rcases hx' with h | h
    · exact processUser_no_mark w ev s u x h e
    · exact ih (processUser w ev s u).st x h e

theorem mem_wrap (x a : Action) (T : List Action) (b : Action) :
    x ∈ ([a] ++ T ++ [b]) ↔ (x = a ∨ x ∈ T ∨ x = b) := by
  simp [List.mem_append, List.mem_cons, or_assoc]

/-- C2: Event-marking rule of the notify phase.  For an unnotified event
processed in one notify-phase pass, markEventAsNotified is invoked for it
iff at least one send succeeded during the pass or there were zero eligible
(token-bearing) followers; with zero eligible followers the pass consists
of exactly the follower query and the mark — zero dispatcher calls, zero
notifications counted — and the state update is exactly the mark. -/
theorem c2_event_marking (w : World) (s : St) (ev : KnownEvent) :
    (Action.mark ev.id ∈ (processEvent w s ev).tr ↔
      ((∃ uid, Action.send uid ev.id true ∈ (processEvent w s ev).tr) ∨
        getUsersFollowingArtist s ev.artist_id = [])) ∧
    (getUsersFollowingArtist s ev.artist_id = [] →
      (processEvent w s ev).tr = [Action.queryFollowers ev.artist_id, Action.mark ev.id] ∧
      (processEvent w s ev).sent = 0 ∧
      (processEvent w s ev).st = markEventAsNotified s ev.id) := by
  constructor
  · unfold processEvent
    dsimp only
    split
    · rename_i hcond
      rw [Bool.or_eq_true] at hcond
      constructor
      · intro _
        rcases hcond with hok | hemp
        · rcases (processUsers_ok_iff w ev _ s).mp hok with ⟨uid, h⟩
          exact Or.inl ⟨uid, (mem_wrap _ _ _ _).mpr (Or.inr (Or.inl h))⟩
        · exact Or.inr (List.isEmpty_iff.mp hemp)
      · intro _
        exact (mem_wrap _ _ _ _).mpr (Or.inr (Or.inr rfl))
    · rename_i hcond
      rw [Bool.or_eq_true] at hcond
      push_neg at hcond
      constructor
      · intro hmark
        rcases List.mem_cons.mp hmark with h | h
        · exact absurd h (by simp)
        · exact absurd rfl (processUsers_no_mark w ev _ s _ h ev.id)
      · rintro (⟨uid, hsend⟩ | hemp)
        · rcases List.mem_cons.mp hsend with h | h
          · exact absurd h (by simp)
          · exact absurd ((processUsers_ok_iff w ev _ s).mpr ⟨uid, h⟩) hcond.1
        · have hie : (getUsersFollowingArtist s ev.artist_id).isEmpty = true := by
            rw [hemp]; rfl
          exact absurd hie hcond.2
  · intro h
    unfold processEvent
    rw [h]
    simp [processUsers, markEventAsNotified]

/-! ### Discover phase: inserted rows, idempotence, natural-key
uniqueness. -/

/-- The ticketmaster_id column of the known_events table. -/
def tmIds (s : St) : List String :=
  s.events.map (fun e => e.ticketmaster_id)

theorem eventExists_mono {s s' : St} (t : String) (news : List KnownEvent)
    (h : s'.events = s.events ++ news) (he : eventExists s t = true) :
    eventExists s' t = true := by
  unfold eventExists at he ⊢
  rw [h, List.any_append, Bool.or_eq_true]
  exact Or.inl he

theorem processTMEvents_events (a : String) (l : List TMEvent) :
    ∀ s : St, ∃ news, (processTMEvents s a l).st.events = s.events ++ news ∧
      ∀ e ∈ news, e.notified = false := by
  induction l with
  | nil => intro s; exact ⟨[], (List.append_nil _).symm, by simp⟩
  | cons e0 rest ih =>
    intro s
    obtain ⟨news2, h2, hn2⟩ := ih (processTMEvent s a e0).st
    show ∃ news, (processTMEvents (processTMEvent s a e0).st a rest).st.events = _ ∧ _
    unfold processTMEvent at h2 ⊢
    split at h2
    · split
      · exact ⟨news2, h2, hn2⟩
      · simp_all
    · split
      · simp_all
      · refine ⟨newKnownEvent s e0 a (artistNameFor e0 a) :: news2, ?_, ?_⟩
        · rw [h2]
          show (insertKnownEvent s e0 a (artistNameFor e0 a)).events ++ news2 = _
          rw [show (insertKnownEvent s e0 a (artistNameFor e0 a)).events =
            s.events ++ [newKnownEvent s e0 a (artistNameFor e0 a)] from rfl]
          simp
        · intro e he
          rcases List.mem_cons.mp he with rfl | hmem
          · rfl
          · exact hn2 e hmem

theorem discoverArtists_events (w : World) (ids : List String) :
    ∀ s : St, ∃ news, (discoverArtists w s ids).st.events = s.events ++ news ∧
      ∀ e ∈ news, e.notified = false := by
  induction ids with
  | nil => intro s; exact ⟨[], (List.append_nil _).symm, by simp⟩
  | cons a rest ih =>
    intro s
    obtain ⟨news1, h1, hn1⟩ := processTMEvents_events a (fetchEventsForArtist (w.fetchRes a)) s
    obtain ⟨news2, h2, hn2⟩ := ih (discoverArtist w s a).st
    refine ⟨news1 ++ news2, ?_, ?_⟩
    · show (discoverArtists w (discoverArtist w s a).st rest).st.events = _
      rw [h2]
      show (processTMEvents s a (fetchEventsForArtist (w.fetchRes a))).st.events ++ news2 = _
      rw [h1, List.append_assoc]
    · intro e he
      rcases List.mem_append.mp he with h | h
      · exact hn1 e h
      · exact hn2 e h

theorem processTMEvent_covers_self (s : St) (a : String) (e : TMEvent) :
    eventExists (processTMEvent s a e).st e.id = true := by
  unfold processTMEvent
  split
  · rename_i h; exact h
  · unfold eventExists insertKnownEvent
    rw [List.any_append, Bool.or_eq_true]
    right
    simp [newKnownEvent]

theorem processTMEvents_covers (a : String) (l : List TMEvent) :
    ∀ s : St, ∀ e ∈ l, eventExists (processTMEvents s a l).st e.id = true := by
  induction l with
  | nil => intro s e he; simp at he
  | cons e0 rest ih =>
    intro s e he
    show eventExists (processTMEvents (processTMEvent s a e0).st a rest).st e.id = true
    rcases List.mem_cons.mp he with rfl | hmem
    · obtain ⟨news, hn, -⟩ := processTMEvents_events a rest (processTMEvent s a e).st
      exact eventExists_mono e.id news hn (processTMEvent_covers_self s a e)
    · exact ih (processTMEvent s a e0).st e hmem

theorem discoverArtists_covers (w : World) (ids : List String) :
    ∀ s : St, ∀ a ∈ ids, ∀ e ∈ fetchEventsForArtist (w.fetchRes a),
      eventExists (discoverArtists w s ids).st e.id = true := by
  induction ids with
  | nil => intro s a ha; simp at ha
  | cons a0 rest ih =>
    intro s a ha e he
    show eventExists (discoverArtists w (discoverArtist w s a0).st rest).st e.id = true
    rcases List.mem_cons.mp ha with rfl | hmem
    · obtain ⟨news, hn, -⟩ := discoverArtists_events w rest (discoverArtist w s a).st
      exact eventExists_mono e.id news hn (processTMEvents_covers a (fetchEventsForArtist (w.fetchRes a)) s e he)
    · exact ih (discoverArtist w s a0).st a hmem e he

theorem processTMEvents_noop (a : String) (l : List TMEvent) :
    ∀ s : St, (∀ e ∈ l, eventExists s e.id = true) →
      (processTMEvents s a l).st = s ∧ (processTMEvents s a l).added = 0 := by
  induction l with
  | nil => intro s _; exact ⟨rfl, rfl⟩
  | cons e0 rest ih =>
    intro s h
    have h0 : eventExists s e0.id = true := h e0 (List.mem_cons_self _ _)
    have hstep : processTMEvent s a e0 = ⟨s, 1, 0, [Action.queryExists e0.id]⟩ := by
      unfold processTMEvent
      rw [if_pos h0]
    have hrest := ih s (fun e he => h e (List.mem_cons_of_mem e0 he))
    constructor
    · show (processTMEvents (processTMEvent s a e0).st a rest).st = s
      rw [hstep]
      exact hrest.1
    · show (processTMEvent s a e0).added + (processTMEvents (processTMEvent s a e0).st a rest).added = 0
      rw [hstep]
      simpa using hrest.2

theorem discoverArtists_noop (w : World) (ids : List String) :
    ∀ s : St, (∀ a ∈ ids, ∀ e ∈ fetchEventsForArtist (w.fetchRes a), eventExists s e.id = true) →
      (discoverArtists w s ids).st = s ∧ (discoverArtists w s ids).added = 0 := by
  induction ids with
  | nil => intro s _; exact ⟨rfl, rfl⟩
  | cons a0 rest ih =>
    intro s h
    have h0 := processTMEvents_noop a0 (fetchEventsForArtist (w.fetchRes a0)) s
      (h a0 (List.mem_cons_self _ _))
    have hart : (discoverArtist w s a0).st = s := h0.1
    have hartadd : (discoverArtist w s a0).added = 0 := h0.2
    have hrest := ih (discoverArtist w s a0).st
      (by rw [hart]; exact fun a ha e he => h a (List.mem_cons_of_mem a0 ha) e he)
    constructor
    · show (discoverArtists w (discoverArtist w s a0).st rest).st = s
      rw [hrest.1, hart]
    · show (discoverArtist w s a0).added + (discoverArtists w (discoverArtist w s a0).st rest).added = 0
      rw [hartadd, hrest.2]

theorem getUniqueArtistIds_congr {s s' : St} (h : s'.userArtists = s.userArtists) :
    getUniqueArtistIds s' = getUniqueArtistIds s := by
  unfold getUniqueArtistIds
  rw [h]

theorem processTMEvent_nodup (s : St) (a : String) (e : TMEvent)
    (h : (tmIds s).Nodup) : (tmIds (processTMEvent s a e).st).Nodup := by
  unfold processTMEvent
  split
  · exact h
  · rename_i hne
    unfold tmIds insertKnownEvent
    rw [List.map_append]
    simp only [List.map_cons, List.map_nil]
    rw [List.nodup_append]
    refine ⟨h, List.nodup_singleton _, ?_⟩
    intro t ht ht'
    simp only [List.mem_singleton] at ht'
    subst ht'
    rcases List.mem_map.mp ht with ⟨row, hrow, hrow'⟩
    apply absurd _ hne
    unfold eventExists
    rw [List.any_eq_true]
    refine ⟨row, hrow, ?_⟩
    rw [hrow']
    simp [newKnownEvent]

theorem processTMEvents_nodup (a : String) (l : List TMEvent) :
    ∀ s : St, (tmIds s).Nodup → (tmIds (processTMEvents s a l).st).Nodup := by
  induction l with
  | nil => intro s h; exact h
  | cons e0 rest ih =>
    intro s h
    exact ih (processTMEvent s a e0).st (processTMEvent_nodup s a e0 h)

theorem discoverArtists_nodup (w : World) (ids : List String) :
    ∀ s : St, (tmIds s).Nodup → (tmIds (discoverArtists w s ids).st).Nodup := by
  induction ids with
  | nil => intro s h; exact h
  | cons a0 rest ih =>
    intro s h
    exact ih (discoverArtist w s a0).st
      (processTMEvents_nodup a0 (fetchEventsForArtist (w.fetchRes a0)) s h)

/-- C4: Idempotent discovery.  With the upstream catalog responses fixed,
running the discover phase a second time changes nothing: the state is
unchanged and newEventsAdded is 0 — every check-then-insert finds the row
already present under its ticketmaster_id natural key.  Moreover the
discover phase preserves uniqueness of ticketmaster_id over the event
store, so each upstream event ID yields at most one row. -/
theorem c4_idempotent_discovery (w : World) (s : St) :
    (discoverPhase w (discoverPhase w s).st).st = (discoverPhase w s).st ∧
    (discoverPhase w (discoverPhase w s).st).added = 0 ∧
    ((tmIds s).Nodup → (tmIds (discoverPhase w s).st).Nodup) := by
  have hids : getUniqueArtistIds (discoverPhase w s).st = getUniqueArtistIds s :=
    getUniqueArtistIds_congr (discoverPhase_ext w s).2.1
  have hcover : ∀ a ∈ getUniqueArtistIds s, ∀ e ∈ fetchEventsForArtist (w.fetchRes a),
      eventExists (discoverPhase w s).st e.id = true :=
    discoverArtists_covers w (getUniqueArtistIds s) s
  have hno := discoverArtists_noop w (getUniqueArtistIds (discoverPhase w s).st)
    (discoverPhase w s).st (by rw [hids]; exact hcover)
  refine ⟨hno.1, hno.2, fun h => discoverArtists_nodup w (getUniqueArtistIds s) s h⟩

theorem discoverArtists_fetch_mem (w : World) (ids : List String) :
    ∀ s : St, ∀ a ∈ ids, Action.fetch a ∈ (discoverArtists w s ids).tr := by
  induction ids with
  | nil => intro s a ha; simp at ha
  | cons a0 rest ih =>
    intro s a ha
    show Action.fetch a ∈ (discoverArtist w s a0).tr ++ (discoverArtists w (discoverArtist w s a0).st rest).tr
    rcases List.mem_cons.mp ha with rfl | hmem
    · exact List.mem_append.mpr (Or.inl (List.mem_cons_self _ _))
    · exact List.mem_append.mpr (Or.inr (ih (discoverArtist w s a0).st a hmem))

/-- C6: Isolation under partial failure.  Even when the catalog fetch for
artist A fails (HTTP error such as a 429 or a 5xx, thrown network error,
or unparsable body), every other artist B of the same run is still
fetched, and every event of B's (filtered) response ends up present in the
event store after the discover phase. -/
theorem c6_isolation (w : World) (s : St) (A B : String)
    (hAB : A ≠ B) (hfail : isFetchFailure (w.fetchRes A) = true)
    (hB : B ∈ getUniqueArtistIds s) :
    Action.fetch B ∈ (discoverPhase w s).tr ∧
    ∀ e ∈ fetchEventsForArtist (w.fetchRes B),
      eventExists (discoverPhase w s).st e.id = true := by
  constructor
  · show Action.fetch B ∈ Action.queryArtists :: (discoverArtists w s (getUniqueArtistIds s)).tr
    exact List.mem_cons_of_mem _ (discoverArtists_fetch_mem w (getUniqueArtistIds s) s B hB)
  · exact discoverArtists_covers w (getUniqueArtistIds s) s B hB

/-! ### Rate-limit retry policy of the mobile catalog client. -/

/-- C7: On HTTP 429 the client retries with exponential backoff.  When
every attempt is rate-limited, fetchWithRetry performs exactly r backoff
waits whose durations double each attempt (d, 2d, 4d, ...), and after the
retry ceiling is exhausted it surfaces the rate-limit failure to the
caller as a value (the thrown error is caught by the calling search
function), rather than looping or succeeding spuriously.  The source's
entry point uses r = 3 and d = 1000. -/
theorem c7_rate_limit_retry (attempts : Nat → HttpAttempt)
    (h429 : ∀ n, attempts n = HttpAttempt.status 429) :
    ∀ r k d, fetchWithRetry attempts k r d =
      (Except.error "Rate limit exceeded after retries",
        (List.range r).map (fun i => d * 2 ^ i)) := by
  intro r
  induction r with
  | zero =>
    intro k d
    unfold fetchWithRetry
    rw [h429 k]
    simp
  | succ r ih =>
    intro k d
    have hlist : (List.range (r + 1)).map (fun i => d * 2 ^ i) =
        d :: (List.range r).map (fun i => d * 2 * 2 ^ i) := by
      rw [List.range_succ_eq_map, List.map_cons, List.map_map]
      refine congrArg₂ _ (by simp) (List.map_congr_left ?_)
      intro i _
      show d * 2 ^ (i + 1) = d * 2 * 2 ^ i
      rw [pow_succ]
      ring
    unfold fetchWithRetry
    rw [h429 k]
    dsimp only
    rw [ih (k + 1) (d * 2), hlist]

/-! ### Non-performance filtering before the event store. -/

theorem fetchEventsForArtist_not_sports (r : FetchResult) :
    ∀ e ∈ fetchEventsForArtist r, isSportsEvent e = false := by
  intro e he
  unfold fetchEventsForArtist at he
  split at he
  · have := (List.mem_filter.mp he).2
    simpa using this
  · simp at he

theorem processTMEvents_insert_mem (a : String) (l : List TMEvent) :
    ∀ s : St, ∀ e : TMEvent, Action.insert e ∈ (processTMEvents s a l).tr → e ∈ l := by
  induction l with
  | nil => intro s e he; simp [processTMEvents] at he
  | cons e0 rest ih =>
    intro s e he
    have he' : Action.insert e ∈ (processTMEvent s a e0).tr ∨
        Action.insert e ∈ (processTMEvents (processTMEvent s a e0).st a rest).tr := by
      simpa [processTMEvents] using List.mem_append.mp he
    rcases he' with h | h
    · unfold processTMEvent at h
      split at h
      · simp only [List.mem_singleton] at h
        exact absurd h (by simp)
      · simp only [List.mem_cons, List.not_mem_nil, or_false] at h
        rcases h with h | h
        · exact absurd h (by simp)
        · have : e = e0 := by
            injection h
          exact this ▸ List.mem_cons_self e0 rest
    · exact List.mem_cons_of_mem e0 (ih (processTMEvent s a e0).st e h)

theorem discoverArtists_insert_mem (w : World) (ids : List String) :
    ∀ s : St, ∀ e : TMEvent, Action.insert e ∈ (discoverArtists w s ids).tr →
      ∃ a ∈ ids, e ∈ fetchEventsForArtist (w.fetchRes a) := by
  induction ids with
  | nil => intro s e he; simp [discoverArtists] at he
  | cons a0 rest ih =>
    intro s e he
    have he' : Action.insert e ∈ (discoverArtist w s a0).tr ∨
        Action.insert e ∈ (discoverArtists w (discoverArtist w s a0).st rest).tr := by
      simpa [discoverArtists] using List.mem_append.mp he
    rcases he' with h | h
    · rcases List.mem_cons.mp h with h | h
      · exact absurd h (by simp)
      · exact ⟨a0, List.mem_cons_self _ _,
          processTMEvents_insert_mem a0 (fetchEventsForArtist (w.fetchRes a0)) s e h⟩
    · obtain ⟨a, ha, hmem⟩ := ih (discoverArtist w s a0).st e h
      exact ⟨a, List.mem_cons_of_mem a0 ha, hmem⟩

/-- C8 amended: Sports filtering before the event store.  No event
carrying a Sports classification segment is ever passed to the
event-store insert step: every insert of the discover phase is of an
event the pure classification filter admitted.  The filter is a pure
function of the classification metadata alone: two events with the same
classifications are filtered identically.  This Sports-segment test is
the only non-performance filter on the event-store path; other
non-performance events (such as parking passes) are dropped only on the
mobile client's display path, not before insertion. -/
theorem c8_non_performance_filter (w : World) (s : St) :
    (∀ e : TMEvent, Action.insert e ∈ (discoverPhase w s).tr → isSportsEvent e = false) ∧
    (∀ e e' : TMEvent, e.classifications = e'.classifications →
      isSportsEvent e = isSportsEvent e') := by
  constructor
  · intro e he
    have he' : Action.insert e ∈ (discoverArtists w s (getUniqueArtistIds s)).tr := by
      have : Action.insert e ∈
          Action.queryArtists :: (discoverArtists w s (getUniqueArtistIds s)).tr := he
      rcases List.mem_cons.mp this with h | h
      · exact absurd h (by simp)
      · exact h
    obtain ⟨a, -, hmem⟩ := discoverArtists_insert_mem w (getUniqueArtistIds s) s e he'
    exact fetchEventsForArtist_not_sports (w.fetchRes a) e hmem
  · intro e e' h
    unfold isSportsEvent
    rw [h]

/-! ### The trigger surface. -/

/-- C9: Trigger surface contract.  A POST with complete configuration runs
the orchestrator and returns the success response carrying exactly the
run's counters {eventsProcessed, newEventsAdded, notificationsSent} and
final state; with missing configuration (absent or empty API key,
Supabase URL or service-role key) the handler returns the failure response
carrying the configuration error message, the state is untouched and the
action trace is empty — no store query, no store write and no upstream
fetch happens. -/
theorem c9_trigger_surface (c : Config) (w : World) (s : St) :
    (configError c = none →
      handleRequest c w s HttpMethod.post =
        (ServeResponse.success (syncEventsAndNotify w s).stats,
          (syncEventsAndNotify w s).st, (syncEventsAndNotify w s).tr)) ∧
    (∀ msg, configError c = some msg →
      handleRequest c w s HttpMethod.post = (ServeResponse.failure msg, s, [])) := by
  constructor
  · intro h
    unfold handleRequest
    rw [h]
  · intro msg h
    unfold handleRequest
    rw [h]

/-! ### The run is determined by the per-artist filtered catalog response
and the per-pair send outcome. -/

theorem processUser_congr {w w' : World} (hsend : w.sendOk = w'.sendOk)
    (ev : KnownEvent) (s : St) (u : String × String) :
    processUser w ev s u = processUser w' ev s u := by
  unfold processUser
  rw [hsend]

theorem processUsers_congr {w w' : World} (hsend : w.sendOk = w'.sendOk)
    (ev : KnownEvent) (us : List (String × String)) :
    ∀ s : St, processUsers w ev s us = processUsers w' ev s us := by
  induction us with
  | nil => intro s; rfl
  | cons u rest ih =>
    intro s
    show UserRes.mk (processUsers w ev (processUser w ev s u).st rest).st
        ((processUser w ev s u).ok || (processUsers w ev (processUser w ev s u).st rest).ok)
        ((processUser w ev s u).sent + (processUsers w ev (processUser w ev s u).st rest).sent)
        ((processUser w ev s u).tr ++ (processUsers w ev (processUser w ev s u).st rest).tr) =
      processUsers w' ev s (u :: rest)
    rw [processUser_congr hsend, ih]
    rfl

theorem processEvent_congr {w w' : World} (hsend : w.sendOk = w'.sendOk)
    (s : St) (ev : KnownEvent) : processEvent w s ev = processEvent w' s ev := by
  unfold processEvent
  dsimp only
  rw [processUsers_congr hsend]

theorem processEvents_congr {w w' : World} (hsend : w.sendOk = w'.sendOk)
    (l : List KnownEvent) : ∀ s : St, processEvents w s l = processEvents w' s l := by
  induction l with
  | nil => intro s; rfl
  | cons ev rest ih =>
    intro s
    show NotifyRes.mk (processEvents w (processEvent w s ev).st rest).st
        ((processEvent w s ev).sent + (processEvents w (processEvent w s ev).st rest).sent)
        ((processEvent w s ev).tr ++ (processEvents w (processEvent w s ev).st rest).tr) =
      processEvents w' s (ev :: rest)
    rw [processEvent_congr hsend, ih]
    rfl

theorem notifyPhase_congr {w w' : World} (hsend : w.sendOk = w'.sendOk) (s : St) :
    notifyPhase w s = notifyPhase w' s := by
  unfold notifyPhase
  rw [processEvents_congr hsend]

theorem discoverArtist_congr {w w' : World}
    (hf : ∀ a, fetchEventsForArtist (w.fetchRes a) = fetchEventsForArtist (w'.fetchRes a))
    (s : St) (a : String) : discoverArtist w s a = discoverArtist w' s a := by
  unfold discoverArtist
  rw [hf a]

theorem discoverArtists_congr {w w' : World}
    (hf : ∀ a, fetchEventsForArtist (w.fetchRes a) = fetchEventsForArtist (w'.fetchRes a))
    (ids : List String) : ∀ s : St, discoverArtists w s ids = discoverArtists w' s ids := by
  induction ids with
  | nil => intro s; rfl
  | cons a rest ih =>
    intro s
    show DiscoverRes.mk (discoverArtists w (discoverArtist w s a).st rest).st
        ((discoverArtist w s a).processed + (discoverArtists w (discoverArtist w s a).st rest).processed)
        ((discoverArtist w s a).added + (discoverArtists w (discoverArtist w s a).st rest).added)
        ((discoverArtist w s a).tr ++ (discoverArtists w (discoverArtist w s a).st rest).tr) =
      discoverArtists w' s (a :: rest)
    rw [discoverArtist_congr hf, ih]
    rfl

theorem syncEventsAndNotify_congr {w w' : World}
    (hf : ∀ a, fetchEventsForArtist (w.fetchRes a) = fetchEventsForArtist (w'.fetchRes a))
    (hsend : w.sendOk = w'.sendOk) (s : St) :
    syncEventsAndNotify w s = syncEventsAndNotify w' s := by
  unfold syncEventsAndNotify discoverPhase
  dsimp only
  rw [discoverArtists_congr hf, notifyPhase_congr hsend]

/-- C10 (implicit): every failure mode of fetching an artist's events —
non-OK HTTP status including 429, thrown network error, unparsable body —
yields the same result as the artist having no events: an empty list with
no error surfaced.  Consequently a run in which every upstream fetch fails
still completes with a success response whose newEventsAdded is 0, and the
trigger surface response, final state and action trace are identical to
those of a run over a catalog with no events at all. -/
theorem c10_failures_as_empty (c : Config) (w w' : World) (s : St)
    (hc : configError c = none)
    (hfail : ∀ a, isFetchFailure (w.fetchRes a) = true)
    (hempty : ∀ a, w'.fetchRes a = FetchResult.ok (some []))
    (hsend : w.sendOk = w'.sendOk) :
    (∀ r, isFetchFailure r = true → fetchEventsForArtist r = []) ∧
    (∃ st : Stats, (handleRequest c w s HttpMethod.post).1 = ServeResponse.success st ∧
      st.newEventsAdded = 0) ∧
    handleRequest c w s HttpMethod.post = handleRequest c w' s HttpMethod.post := by
  have hfe : ∀ r, isFetchFailure r = true → fetchEventsForArtist r = [] := by
    intro r hr
    cases r with
    | httpError code => rfl
    | networkError => rfl
    | malformedBody => rfl
    | ok evs => exact absurd hr (by simp [isFetchFailure])
  refine ⟨hfe, ?_, ?_⟩
  · have hadded : (discoverPhase w s).added = 0 := by
      have := discoverArtists_noop w (getUniqueArtistIds s) s
        (by intro a _ e he
            rw [hfe (w.fetchRes a) (hfail a)] at he
            exact absurd he (List.not_mem_nil e))
      exact this.2
    refine ⟨(syncEventsAndNotify w s).stats, ?_, ?_⟩
    · unfold handleRequest
      rw [hc]
    · show (discoverPhase w s).added = 0
      exact hadded
  · unfold handleRequest
    rw [hc]
    have : syncEventsAndNotify w s = syncEventsAndNotify w' s := by
      refine syncEventsAndNotify_congr ?_ hsend s
      intro a
      rw [hfe (w.fetchRes a) (hfail a), hempty a]
      rfl
    rw [this]

/-! ### Well-formedness of the durable state: unique internal event ids
below the uuid counter, and unique user ids. -/

/-- The internal id column of the known_events table. -/
def eventIds (s : St) : List Nat :=
  s.events.map (fun e => e.id)

/-- Well-formed state: internal event ids are unique and below the uuid
counter, and user ids are unique (both hold of the real database, where
these are primary keys drawn from a generator). -/
def WF (s : St) : Prop :=
  (eventIds s).Nodup ∧ (∀ e ∈ s.events, e.id < s.nextId) ∧
    (s.users.map (fun u => u.id)).Nodup

instance (s : St) : Decidable (WF s) := by
  unfold WF
  infer_instance

theorem WF_insertKnownEvent (s : St) (e : TMEvent) (aid an : String) (h : WF s) :
    WF (insertKnownEvent s e aid an) := by
  obtain ⟨h1, h2, h3⟩ := h
  refine ⟨?_, ?_, h3⟩
  · unfold eventIds at h1 ⊢
    unfold insertKnownEvent
    rw [List.map_append]
    simp only [List.map_cons, List.map_nil]
    rw [List.nodup_append]
    refine ⟨h1, List.nodup_singleton _, ?_⟩
    intro t ht ht'
    simp only [List.mem_singleton] at ht'
    subst ht'
    rcases List.mem_map.mp ht with ⟨row, hrow, hrow'⟩
    have := h2 row hrow
    rw [hrow'] at this
    simp [newKnownEvent] at this
  · intro x hx
    unfold insertKnownEvent at hx
    rcases List.mem_append.mp hx with hx | hx
    · exact Nat.lt_succ_of_lt (h2 x hx)
    · simp only [List.mem_singleton] at hx
      subst hx
      simp [newKnownEvent, insertKnownEvent]

theorem WF_processTMEvent (s : St) (a : String) (e : TMEvent) (h : WF s) :
    WF (processTMEvent s a e).st := by
  unfold processTMEvent
  split
  · exact h
  · exact WF_insertKnownEvent s e a (artistNameFor e a) h

theorem WF_processTMEvents (a : String) (l : List TMEvent) :
    ∀ s : St, WF s → WF (processTMEvents s a l).st := by
  induction l with
  | nil => intro s h; exact h
  | cons e0 rest ih => intro s h; exact ih _ (WF_processTMEvent s a e0 h)

theorem WF_discoverArtists (w : World) (ids : List String) :
    ∀ s : St, WF s → WF (discoverArtists w s ids).st := by
  induction ids with
  | nil => intro s h; exact h
  | cons a rest ih =>
    intro s h
    exact ih _ (WF_processTMEvents a (fetchEventsForArtist (w.fetchRes a)) s h)

theorem markEventAsNotified_eventIds (s : St) (eid : Nat) :
    eventIds (markEventAsNotified s eid) = eventIds s := by
  unfold eventIds markEventAsNotified
  rw [List.map_map]
  refine List.map_congr_left ?_
  intro e _
  show (if e.id = eid then { e with notified := true } else e).id = e.id
  split <;> rfl

theorem WF_markEventAsNotified (s : St) (eid : Nat) (h : WF s) :
    WF (markEventAsNotified s eid) := by
  obtain ⟨h1, h2, h3⟩ := h
  refine ⟨?_, ?_, h3⟩
  · rw [markEventAsNotified_eventIds]; exact h1
  · intro x hx
    unfold markEventAsNotified at hx
    rcases List.mem_map.mp hx with ⟨e, he, he'⟩
    have := h2 e he
    subst he'
    show (if e.id = eid then { e with notified := true } else e).id < s.nextId
    split <;> exact this

theorem WF_processUsers (w : World) (ev : KnownEvent) (us : List (String × String))
    (s : St) (h : WF s) : WF (processUsers w ev s us).st := by
  have hx := processUsers_ext w ev us s
  obtain ⟨h1, h2, h3⟩ := h
  refine ⟨?_, ?_, ?_⟩
  · unfold eventIds
    rw [hx.2.2.1]
    exact h1
  · rw [hx.2.2.1, hx.2.2.2]
    exact h2
  · rw [hx.1]
    exact h3

theorem WF_processEvent (w : World) (s : St) (ev : KnownEvent) (h : WF s) :
    WF (processEvent w s ev).st := by
  unfold processEvent
  dsimp only
  split
  · exact WF_markEventAsNotified _ ev.id (WF_processUsers w ev _ s h)
  · exact WF_processUsers w ev _ s h

theorem WF_processEvents (w : World) (l : List KnownEvent) :
    ∀ s : St, WF s → WF (processEvents w s l).st := by
  induction l with
  | nil => intro s h; exact h
  | cons ev rest ih => intro s h; exact ih _ (WF_processEvent w s ev h)

theorem WF_syncEventsAndNotify (w : World) (s : St) (h : WF s) :
    WF (syncEventsAndNotify w s).st :=
  WF_processEvents w _ _ (WF_discoverArtists w (getUniqueArtistIds s) s h)

/-! ### Which pairs the fan-out adds to the ledger, and that an eligible
unrecorded follower always gets a send attempt. -/

theorem processUser_ledger_shape (w : World) (ev : KnownEvent) (s : St) (u : String × String) :
    (processUser w ev s u).st.ledger = s.ledger ∨
    (processUser w ev s u).st.ledger = s.ledger ++ [(u.1, ev.id)] := by
  unfold processUser
  split
  · exact Or.inl rfl
  · split
    · exact Or.inr rfl
    · exact Or.inl rfl

theorem processUsers_ledger_shape (w : World) (ev : KnownEvent) (us : List (String × String)) :
    ∀ s : St, ∃ extra, (processUsers w ev s us).st.ledger = s.ledger ++ extra ∧
      ∀ p ∈ extra, p.2 = ev.id := by
  induction us with
  | nil => intro s; exact ⟨[], (List.append_nil _).symm, by simp⟩
  | cons u rest ih =>
    intro s
    obtain ⟨extra2, h2, hp2⟩ := ih (processUser w ev s u).st
    show ∃ extra, (processUsers w ev (processUser w ev s u).st rest).st.ledger = _ ∧ _
    rcases processUser_ledger_shape w ev s u with h1 | h1
    · exact ⟨extra2, by rw [h2, h1], hp2⟩
    · refine ⟨(u.1, ev.id) :: extra2, ?_, ?_⟩
      · rw [h2, h1]
        simp
      · intro p hp
        rcases List.mem_cons.mp hp with rfl | hp
        · rfl
        · exact hp2 p hp

theorem processEvent_ledger_shape (w : World) (s : St) (ev : KnownEvent) :
    ∃ extra, (processEvent w s ev).st.ledger = s.ledger ++ extra ∧
      ∀ p ∈ extra, p.2 = ev.id := by
  unfold processEvent
  dsimp only
  obtain ⟨extra, h, hp⟩ := processUsers_ledger_shape w ev (getUsersFollowingArtist s ev.artist_id) s
  split
  · exact ⟨extra, h, hp⟩
  · exact ⟨extra, h, hp⟩

theorem processEvents_ledger_shape (w : World) (l : List KnownEvent) :
    ∀ s : St, ∃ extra, (processEvents w s l).st.ledger = s.ledger ++ extra ∧
      ∀ p ∈ extra, ∃ ev ∈ l, p.2 = ev.id := by
  induction l with
  | nil => intro s; exact ⟨[], (List.append_nil _).symm, by simp⟩
  | cons ev0 rest ih =>
    intro s
    obtain ⟨e1, h1, hp1⟩ := processEvent_ledger_shape w s ev0
    obtain ⟨e2, h2, hp2⟩ := ih (processEvent w s ev0).st
    refine ⟨e1 ++ e2, ?_, ?_⟩
    · show (processEvents w (processEvent w s ev0).st rest).st.ledger = _
      rw [h2, h1, List.append_assoc]
    · intro p hp
      rcases List.mem_append.mp hp with hp | hp
      · exact ⟨ev0, List.mem_cons_self _ _, hp1 p hp⟩
      · obtain ⟨ev, hev, hid⟩ := hp2 p hp
        exact ⟨ev, List.mem_cons_of_mem ev0 hev, hid⟩

/-- The follower list is built by filterMap over the users table; its
user ids come from the table. -/
theorem followers_fst_sub (userIds : List String) :
    ∀ l : List UserRow, ∀ x,
      x ∈ ((l.filterMap (fun u =>
        match u.push_token with
        | some t => if decide (u.id ∈ userIds) && decide (t ≠ "") then some (u.id, t) else none
        | none => none)).map Prod.fst) → x ∈ l.map (fun u => u.id) := by
  intro l
  induction l with
  | nil => intro x hx; simp at hx
  | cons u rest ih =>
    intro x hx
    rw [List.filterMap_cons] at hx
    rcases hmatch : (match u.push_token with
      | some t => if decide (u.id ∈ userIds) && decide (t ≠ "") then some (u.id, t) else none
      | none => none) with - | p
    · rw [hmatch] at hx
      exact List.mem_cons_of_mem _ (ih x hx)
    · rw [hmatch, List.map_cons] at hx
      rcases List.mem_cons.mp hx with rfl | hx
      · have hfst : p.1 = u.id := by
          rcases htok : u.push_token with - | t
          · rw [htok] at hmatch
            simp at hmatch
          · rw [htok] at hmatch
            dsimp only at hmatch
            split at hmatch
            · injection hmatch with h
              rw [← h]
            · simp at hmatch
        rw [hfst]
        exact List.mem_cons_self _ _
      · exact List.mem_cons_of_mem _ (ih x hx)

theorem followers_fst_nodup (userIds : List String) :
    ∀ l : List UserRow, (l.map (fun u => u.id)).Nodup →
      ((l.filterMap (fun u =>
        match u.push_token with
        | some t => if decide (u.id ∈ userIds) && decide (t ≠ "") then some (u.id, t) else none
        | none => none)).map Prod.fst).Nodup := by
  intro l
  induction l with
  | nil => intro _; simp
  | cons u rest ih =>
    intro h
    rw [List.map_cons, List.nodup_cons] at h
    rw [List.filterMap_cons]
    rcases hmatch : (match u.push_token with
      | some t => if decide (u.id ∈ userIds) && decide (t ≠ "") then some (u.id, t) else none
      | none => none) with - | p
    · rw [hmatch]
      exact ih h.2
    · rw [hmatch, List.map_cons, List.nodup_cons]
      refine ⟨?_, ih h.2⟩
      intro hmem
      have hfst : p.1 = u.id := by
        rcases htok : u.push_token with - | t
        · rw [htok] at hmatch
          simp at hmatch
        · rw [htok] at hmatch
          dsimp only at hmatch
          split at hmatch
          · injection hmatch with hh
            rw [← hh]
          · simp at hmatch
      rw [hfst] at hmem
      exact h.1 (followers_fst_sub userIds rest u.id hmem)

theorem getUsersFollowingArtist_fst_nodup (s : St) (a : String)
    (h : (s.users.map (fun u => u.id)).Nodup) :
    ((getUsersFollowingArtist s a).map Prod.fst).Nodup :=
  followers_fst_nodup _ s.users h

/-- An eligible follower not yet in the ledger receives a dispatcher call
during the fan-out over the follower list. -/
theorem processUsers_attempt (w : World) (ev : KnownEvent) (U tok : String)
    (us : List (String × String)) :
    ∀ s : St, (U, tok) ∈ us → (us.map Prod.fst).Nodup → (U, ev.id) ∉ s.ledger →
      ∃ b, Action.send U ev.id b ∈ (processUsers w ev s us).tr := by
  induction us with
  | nil => intro s hmem; simp at hmem
  | cons u rest ih =>
    intro s hmem hnd hnl
    have hsub : (processUsers w ev s (u :: rest)).tr =
        (processUser w ev s u).tr ++ (processUsers w ev (processUser w ev s u).st rest).tr := rfl
    rcases List.mem_cons.mp hmem with heq | hmem'
    · have hu1 : u.1 = U := by rw [← heq]
      have hsent : wasNotificationSent s u.1 ev.id = false := by
        unfold wasNotificationSent
        rw [hu1]
        simp [hnl]
      refine ⟨w.sendOk u.1 ev.id, ?_⟩
      rw [hsub, hu1.symm]
      apply List.mem_append.mpr
      left
      unfold processUser
      rw [if_neg (by rw [hsent]; exact Bool.false_ne_true)]
      split
      · rename_i hok
        rw [hok]
        exact List.mem_cons_of_mem _ (List.mem_cons_self _ _)
      · rename_i hok
        rw [Bool.not_eq_true] at hok
        rw [hok]
        exact List.mem_cons_of_mem _ (List.mem_cons_self _ _)
    · rw [List.map_cons, List.nodup_cons] at hnd
      have hne : u.1 ≠ U := by
        intro hcon
        apply hnd.1
        rw [hcon]
        exact List.mem_map.mpr ⟨(U, tok), hmem', rfl⟩
      have hnl' : (U, ev.id) ∉ (processUser w ev s u).st.ledger := by
        rcases processUser_ledger_shape w ev s u with h | h
        · rw [h]; exact hnl
        · rw [h]
          intro hcon
          rcases List.mem_append.mp hcon with hcon | hcon
          · exact hnl hcon
          · simp only [List.mem_singleton, Prod.mk.injEq] at hcon
            exact hne (hcon.1.symm)
      obtain ⟨b, hb⟩ := ih (processUser w ev s u).st hmem' hnd.2 hnl'
      exact ⟨b, by rw [hsub]; exact List.mem_append.mpr (Or.inr hb)⟩

theorem processEvent_attempt (w : World) (s : St) (ev : KnownEvent) (U tok : String)
    (husers : (s.users.map (fun u => u.id)).Nodup)
    (hU : (U, tok) ∈ getUsersFollowingArtist s ev.artist_id)
    (hnl : (U, ev.id) ∉ s.ledger) :
    ∃ b, Action.send U ev.id b ∈ (processEvent w s ev).tr := by
  obtain ⟨b, hb⟩ := processUsers_attempt w ev U tok (getUsersFollowingArtist s ev.artist_id) s hU
    (getUsersFollowingArtist_fst_nodup s ev.artist_id husers) hnl
  refine ⟨b, ?_⟩
  unfold processEvent
  dsimp only
  split
  · exact (mem_wrap _ _ _ _).mpr (Or.inr (Or.inl hb))
  · exact List.mem_cons_of_mem _ hb

theorem processEvents_attempt (w : World) (ev : KnownEvent) (U tok : String)
    (l : List KnownEvent) :
    ∀ s : St, (l.map (fun e => e.id)).Nodup → (s.users.map (fun u => u.id)).Nodup →
      ev ∈ l → (U, tok) ∈ getUsersFollowingArtist s ev.artist_id → (U, ev.id) ∉ s.ledger →
      ∃ b, Action.send U ev.id b ∈ (processEvents w s l).tr := by
  induction l with
  | nil => intro s _ _ hev; simp at hev
  | cons ev0 rest ih =>
    intro s hnd husers hev hU hnl
    have htr : (processEvents w s (ev0 :: rest)).tr =
        (processEvent w s ev0).tr ++ (processEvents w (processEvent w s ev0).st rest).tr := rfl
    rw [List.map_cons, List.nodup_cons] at hnd
    rcases List.mem_cons.mp hev with rfl | hev'
    · obtain ⟨b, hb⟩ := processEvent_attempt w s ev U tok husers hU hnl
      exact ⟨b, by rw [htr]; exact List.mem_append.mpr (Or.inl hb)⟩
    · have hx := processEvent_ext w s ev0
      have husers' : ((processEvent w s ev0).st.users.map (fun u => u.id)).Nodup := by
        rw [hx.1]; exact husers
      have hU' : (U, tok) ∈ getUsersFollowingArtist (processEvent w s ev0).st ev.artist_id := by
        rw [getUsersFollowingArtist_congr ev.artist_id hx.1 hx.2.1]
        exact hU
      have hne : ev.id ≠ ev0.id := by
        intro hcon
        apply hnd.1
        rw [← hcon]
        exact List.mem_map.mpr ⟨ev, hev', rfl⟩
      have hnl' : (U, ev.id) ∉ (processEvent w s ev0).st.ledger := by
        obtain ⟨extra, hsh, hp⟩ := processEvent_ledger_shape w s ev0
        rw [hsh]
        intro hcon
        rcases List.mem_append.mp hcon with hcon | hcon
        · exact hnl hcon
        · exact hne (hp (U, ev.id) hcon)
      obtain ⟨b, hb⟩ := ih (processEvent w s ev0).st hnd.2 husers' hev' hU' hnl'
      exact ⟨b, by rw [htr]; exact List.mem_append.mpr (Or.inr hb)⟩

theorem unnotified_ids_nodup (s : St) (h : WF s) :
    ((getUnnotifiedEvents s).map (fun e => e.id)).Nodup := by
  have hsub : List.Sublist (getUnnotifiedEvents s) s.events := List.filter_sublist _
  have h1 : (s.events.map (fun e => e.id)).Nodup := h.1
  exact (hsub.map (fun e => e.id)).nodup h1

theorem notifyPhase_attempt (w : World) (s : St) (ev : KnownEvent) (U tok : String)
    (hwf : WF s) (hev : ev ∈ getUnnotifiedEvents s)
    (hU : (U, tok) ∈ getUsersFollowingArtist s ev.artist_id)
    (hnl : (U, ev.id) ∉ s.ledger) :
    ∃ b, Action.send U ev.id b ∈ (notifyPhase w s).tr := by
  obtain ⟨b, hb⟩ := processEvents_attempt w ev U tok (getUnnotifiedEvents s) s
    (unnotified_ids_nodup s hwf) hwf.2.2 hev hU hnl
  exact ⟨b, List.mem_cons_of_mem _ hb⟩

/-! ### Provenance: every send of the notify phase belongs to an
unnotified event of the snapshot whose eligible-follower list contains the
recipient. -/

theorem processUser_send_shape (w : World) (ev : KnownEvent) (s : St) (u : String × String)
    (U : String) (eid : Nat) (b : Bool)
    (h : Action.send U eid b ∈ (processUser w ev s u).tr) : U = u.1 ∧ eid = ev.id := by
  unfold processUser at h
  split at h
  · simp only [List.mem_singleton] at h
    exact absurd h (by simp)
  · split at h <;> simp only [List.mem_cons, List.not_mem_nil, or_false] at h
    · rcases h with h | h | h
      · exact absurd h (by simp)
      · injection h with h1 h2
        exact ⟨h1, h2⟩
      · exact absurd h (by simp)
    · rcases h with h | h
      · exact absurd h (by simp)
      · injection h with h1 h2
        exact ⟨h1, h2⟩

theorem processUsers_send (w : World) (ev : KnownEvent) (us : List (String × String)) :
    ∀ s : St, ∀ U : String, ∀ eid : Nat, ∀ b : Bool,
      Action.send U eid b ∈ (processUsers w ev s us).tr →
      (∃ tok, (U, tok) ∈ us) ∧ eid = ev.id := by
  induction us with
  | nil => intro s U eid b h; simp [processUsers] at h
  | cons u rest ih =>
    intro s U eid b h
    have h' : Action.send U eid b ∈ (processUser w ev s u).tr ∨
        Action.send U eid b ∈ (processUsers w ev (processUser w ev s u).st rest).tr := by
      simpa [processUsers] using List.mem_append.mp h
    rcases h' with h | h
    · obtain ⟨h1, h2⟩ := processUser_send_shape w ev s u U eid b h
      exact ⟨⟨u.2, by rw [h1]; exact List.mem_cons_self _ _⟩, h2⟩
    · obtain ⟨⟨tok, htok⟩, h2⟩ := ih (processUser w ev s u).st U eid b h
      exact ⟨⟨tok, List.mem_cons_of_mem u htok⟩, h2⟩

theorem processEvent_send (w : World) (s : St) (ev : KnownEvent)
    (U : String) (eid : Nat) (b : Bool)
    (h : Action.send U eid b ∈ (processEvent w s ev).tr) :
    (∃ tok, (U, tok) ∈ getUsersFollowingArtist s ev.artist_id) ∧ eid = ev.id := by
  unfold processEvent at h
  dsimp only at h
  split at h
  · rcases (mem_wrap _ _ _ _).mp h with h | h | h
    · exact absurd h (by simp)
    · exact processUsers_send w ev _ s U eid b h
    · exact absurd h (by simp)
  · rcases List.mem_cons.mp h with h | h
    · exact absurd h (by simp)
    · exact processUsers_send w ev _ s U eid b h

theorem processEvents_send (w : World) (l : List KnownEvent) :
    ∀ s : St, ∀ U : String, ∀ eid : Nat, ∀ b : Bool,
      Action.send U eid b ∈ (processEvents w s l).tr →
      ∃ ev ∈ l, ev.id = eid ∧ ∃ tok, (U, tok) ∈ getUsersFollowingArtist s ev.artist_id := by
  induction l with
  | nil => intro s U eid b h; simp [processEvents] at h
  | cons ev0 rest ih =>
    intro s U eid b h
    have h' : Action.send U eid b ∈ (processEvent w s ev0).tr ∨
        Action.send U eid b ∈ (processEvents w (processEvent w s ev0).st rest).tr := by
      simpa [processEvents] using List.mem_append.mp h
    rcases h' with h | h
    · obtain ⟨⟨tok, htok⟩, h2⟩ := processEvent_send w s ev0 U eid b h
      exact ⟨ev0, List.mem_cons_self _ _, h2.symm, tok, htok⟩
    · obtain ⟨ev, hev, h2, tok, htok⟩ := ih (processEvent w s ev0).st U eid b h
      have hx := processEvent_ext w s ev0
      rw [getUsersFollowingArtist_congr ev.artist_id hx.1 hx.2.1] at htok
      exact ⟨ev, List.mem_cons_of_mem ev0 hev, h2, tok, htok⟩

theorem notifyPhase_send (w : World) (s : St) (U : String) (eid : Nat) (b : Bool)
    (h : Action.send U eid b ∈ (notifyPhase w s).tr) :
    ∃ ev ∈ getUnnotifiedEvents s, ev.id = eid ∧
      ∃ tok, (U, tok) ∈ getUsersFollowingArtist s ev.artist_id := by
  have h' : Action.send U eid b ∈ (processEvents w s (getUnnotifiedEvents s)).tr := by
    rcases List.mem_cons.mp h with h | h
    · exact absurd h (by simp)
    · exact h
  exact processEvents_send w (getUnnotifiedEvents s) s U eid b h'

theorem processTMEvents_no_send (a : String) (l : List TMEvent) :
    ∀ s : St, ∀ x ∈ (processTMEvents s a l).tr, ∀ U eid b, x ≠ Action.send U eid b := by
  induction l with
  | nil => intro s x hx; simp [processTMEvents] at hx
  | cons ev rest ih =>
    intro s x hx U eid b
    have hx' : x ∈ (processTMEvent s a ev).tr ∨
        x ∈ (processTMEvents (processTMEvent s a ev).st a rest).tr := by
      simpa [processTMEvents] using List.mem_append.mp hx
    rcases hx' with h | h
    · unfold processTMEvent at h
      split at h
      · simp only [List.mem_singleton] at h
        subst h; simp
      · simp only [List.mem_cons, List.not_mem_nil, or_false] at h
        rcases h with h | h <;> subst h <;> simp
    · exact ih (processTMEvent s a ev).st x h U eid b

theorem discoverArtists_no_send (w : World) (ids : List String) :
    ∀ s : St, ∀ x ∈ (discoverArtists w s ids).tr, ∀ U eid b, x ≠ Action.send U eid b := by
  induction ids with
  | nil => intro s x hx; simp [discoverArtists] at hx
  | cons a rest ih =>
    intro s x hx U eid b
    have hx' : x ∈ (discoverArtist w s a).tr ∨
        x ∈ (discoverArtists w (discoverArtist w s a).st rest).tr := by
      simpa [discoverArtists] using List.mem_append.mp hx
    rcases hx' with h | h
    · rcases List.mem_cons.mp h with h | h
      · simp [h]
      · exact processTMEvents_no_send a (fetchEventsForArtist (w.fetchRes a)) s x h U eid b
    · exact ih (discoverArtist w s a).st x h U eid b

theorem syncEventsAndNotify_send (w : World) (s : St) (U : String) (eid : Nat) (b : Bool)
    (h : Action.send U eid b ∈ (syncEventsAndNotify w s).tr) :
    ∃ ev ∈ getUnnotifiedEvents (discoverPhase w s).st, ev.id = eid ∧
      ∃ tok, (U, tok) ∈ getUsersFollowingArtist (discoverPhase w s).st ev.artist_id := by
  have h' : Action.send U eid b ∈ (notifyPhase w (discoverPhase w s).st).tr := by
    have hm : Action.send U eid b ∈ (discoverPhase w s).tr ∨
        Action.send U eid b ∈ (notifyPhase w (discoverPhase w s).st).tr := by
      simpa [syncEventsAndNotify] using List.mem_append.mp h
    rcases hm with hm | hm
    · exfalso
      have hd : Action.send U eid b ∈
          Action.queryArtists :: (discoverArtists w s (getUniqueArtistIds s)).tr := hm
      rcases List.mem_cons.mp hd with hc | hc
      · exact absurd hc (by simp)
      · exact discoverArtists_no_send w (getUniqueArtistIds s) s _ hc U eid b rfl
    · exact hm
  exact notifyPhase_send w (discoverPhase w s).st U eid b h'

/-! ### Row evolution: the notify phase only flips notified flags, never
deletes or rewrites rows; the discover phase only appends fresh rows. -/

/-- The second row is the first with possibly a different notified flag,
and a true flag never reverts. -/
def rowEvolved (e e' : KnownEvent) : Prop :=
  e' = { e with notified := e'.notified } ∧ (e.notified = true → e'.notified = true)

theorem rowEvolved_refl (e : KnownEvent) : rowEvolved e e :=
  ⟨rfl, fun h => h⟩

theorem rowEvolved_trans {e e' e'' : KnownEvent} (h1 : rowEvolved e e')
    (h2 : rowEvolved e' e'') : rowEvolved e e'' := by
  refine ⟨?_, fun h => h2.2 (h1.2 h)⟩
  rw [h2.1, h1.1]

theorem rows_trans {l1 l2 l3 : List KnownEvent} (h1 : List.Forall₂ rowEvolved l1 l2)
    (h2 : List.Forall₂ rowEvolved l2 l3) : List.Forall₂ rowEvolved l1 l3 := by
  induction h1 generalizing l3 with
  | nil =>
    cases h2
    exact List.Forall₂.nil
  | cons h hs ih =>
    cases h2 with
    | cons h' hs' => exact List.Forall₂.cons (rowEvolved_trans h h') (ih hs')

theorem rows_refl (l : List KnownEvent) : List.Forall₂ rowEvolved l l := by
  induction l with
  | nil => exact List.Forall₂.nil
  | cons e rest ih => exact List.Forall₂.cons (rowEvolved_refl e) ih

theorem rows_mem {l1 l2 : List KnownEvent} (h : List.Forall₂ rowEvolved l1 l2) :
    ∀ e ∈ l1, ∃ e' ∈ l2, rowEvolved e e' := by
  induction h with
  | nil => intro e he; simp at he
  | cons hh hs ih =>
    intro e he
    rcases List.mem_cons.mp he with rfl | he'
    · exact ⟨_, List.mem_cons_self _ _, hh⟩
    · obtain ⟨e', he', hr⟩ := ih e he'
      exact ⟨e', List.mem_cons_of_mem _ he', hr⟩

theorem markEventAsNotified_rows (s : St) (eid : Nat) :
    List.Forall₂ rowEvolved s.events (markEventAsNotified s eid).events := by
  show List.Forall₂ rowEvolved s.events (s.events.map _)
  induction s.events with
  | nil => exact List.Forall₂.nil
  | cons e rest ih =>
    refine List.Forall₂.cons ?_ ih
    show rowEvolved e (if e.id = eid then { e with notified := true } else e)
    split
    · exact ⟨rfl, fun _ => rfl⟩
    · exact rowEvolved_refl e

theorem processEvent_rows (w : World) (s : St) (ev : KnownEvent) :
    List.Forall₂ rowEvolved s.events (processEvent w s ev).st.events := by
  unfold processEvent
  dsimp only
  have hpe : (processUsers w ev s (getUsersFollowingArtist s ev.artist_id)).st.events =
      s.events := (processUsers_ext w ev _ s).2.2.1
  split
  · have := markEventAsNotified_rows
      (processUsers w ev s (getUsersFollowingArtist s ev.artist_id)).st ev.id
    rw [hpe] at this
    exact this
  · rw [hpe]
    exact rows_refl s.events

theorem processEvents_rows (w : World) (l : List KnownEvent) :
    ∀ s : St, List.Forall₂ rowEvolved s.events (processEvents w s l).st.events := by
  induction l with
  | nil => intro s; exact rows_refl s.events
  | cons ev rest ih =>
    intro s
    exact rows_trans (processEvent_rows w s ev) (ih (processEvent w s ev).st)

theorem notifyPhase_rows (w : World) (s : St) :
    List.Forall₂ rowEvolved s.events (notifyPhase w s).st.events :=
  processEvents_rows w (getUnnotifiedEvents s) s

/-- C5: Eventual retry of failed sends.  If during a run the dispatcher's
send for user U on event E failed, the event's row still has
notified = false after the run, and no notification record for (U, E)
exists after the run, then the next run's notify phase attempts a send for
(U, E) again.  (The well-formedness hypothesis says internal event ids and
user ids are unique, as the database's key constraints guarantee.) -/
theorem c5_eventual_retry (w1 w2 : World) (s : St) (U : String) (eid : Nat)
    (hwf : WF s)
    (hfail : Action.send U eid false ∈ (syncEventsAndNotify w1 s).tr)
    (hunnot : ∀ e ∈ (syncEventsAndNotify w1 s).st.events, e.id = eid → e.notified = false)
    (hnorec : (U, eid) ∉ (syncEventsAndNotify w1 s).st.ledger) :
    ∃ b, Action.send U eid b ∈ (syncEventsAndNotify w2 (syncEventsAndNotify w1 s).st).tr := by
  obtain ⟨ev, hev, hevid, tok, htok⟩ := syncEventsAndNotify_send w1 s U eid false hfail
  have hevents : ev ∈ (discoverPhase w1 s).st.events := List.mem_of_mem_filter hev
  have hrows : List.Forall₂ rowEvolved (discoverPhase w1 s).st.events
      (syncEventsAndNotify w1 s).st.events := notifyPhase_rows w1 (discoverPhase w1 s).st
  obtain ⟨e1, he1, hr⟩ := rows_mem hrows ev hevents
  have hid : e1.id = ev.id := by rw [hr.1]
  have hart : e1.artist_id = ev.artist_id := by rw [hr.1]
  have hnotif : e1.notified = false := hunnot e1 he1 (hid.trans hevid)
  -- the state at the start of the second run's notify phase
  obtain ⟨news, hnews, -⟩ := discoverArtists_events w2
    (getUniqueArtistIds (syncEventsAndNotify w1 s).st) (syncEventsAndNotify w1 s).st
  have he1' : e1 ∈ (discoverPhase w2 (syncEventsAndNotify w1 s).st).st.events := by
    show e1 ∈ (discoverArtists w2 (syncEventsAndNotify w1 s).st _).st.events
    rw [hnews]
    exact List.mem_append.mpr (Or.inl he1)
  have hsnap : e1 ∈ getUnnotifiedEvents (discoverPhase w2 (syncEventsAndNotify w1 s).st).st := by
    unfold getUnnotifiedEvents
    refine List.mem_filter.mpr ⟨he1', ?_⟩
    rw [hnotif]
    rfl
  have hd1 := discoverPhase_ext w1 s
  have hn1 := notifyPhase_ext w1 (discoverPhase w1 s).st
  have hd2 := discoverPhase_ext w2 (syncEventsAndNotify w1 s).st
  have htok2 : (U, tok) ∈ getUsersFollowingArtist
      (discoverPhase w2 (syncEventsAndNotify w1 s).st).st e1.artist_id := by
    rw [hart]
    rw [getUsersFollowingArtist_congr ev.artist_id hd2.1 hd2.2.1]
    have hs1 : (syncEventsAndNotify w1 s).st.users = (discoverPhase w1 s).st.users := hn1.1
    have hs1' : (syncEventsAndNotify w1 s).st.userArtists =
        (discoverPhase w1 s).st.userArtists := hn1.2.1
    rw [getUsersFollowingArtist_congr ev.artist_id hs1 hs1']
    exact htok
  have hnl2 : (U, e1.id) ∉ (discoverPhase w2 (syncEventsAndNotify w1 s).st).st.ledger := by
    rw [hd2.2.2, hid, hevid]
    exact hnorec
  have hwf2 : WF (discoverPhase w2 (syncEventsAndNotify w1 s).st).st :=
    WF_discoverArtists w2 _ _ (WF_syncEventsAndNotify w1 s hwf)
  obtain ⟨b, hb⟩ := notifyPhase_attempt w2
    (discoverPhase w2 (syncEventsAndNotify w1 s).st).st e1 U tok hwf2 hsnap htok2 hnl2
  refine ⟨b, ?_⟩
  have hb' : Action.send U eid b ∈
      (notifyPhase w2 (discoverPhase w2 (syncEventsAndNotify w1 s).st).st).tr := by
    rw [hid, hevid] at hb
    exact hb
  show Action.send U eid b ∈ (discoverPhase w2 (syncEventsAndNotify w1 s).st).tr ++
    (notifyPhase w2 (discoverPhase w2 (syncEventsAndNotify w1 s).st).st).tr
  exact List.mem_append.mpr (Or.inr hb')

/-! ### Mark provenance: where markEventAsNotified invocations come
from. -/

theorem processUsers_tr_sub (w : World) (s : St) (ev : KnownEvent) (x : Action)
    (h : x ∈ (processUsers w ev s (getUsersFollowingArtist s ev.artist_id)).tr) :
    x ∈ (processEvent w s ev).tr := by
  unfold processEvent
  dsimp only
  split
  · exact (mem_wrap _ _ _ _).mpr (Or.inr (Or.inl h))
  · exact List.mem_cons_of_mem _ h

theorem processEvent_mark (w : World) (s : St) (ev : KnownEvent) (eid' : Nat)
    (h : Action.mark eid' ∈ (processEvent w s ev).tr) :
    eid' = ev.id ∧
      ((processUsers w ev s (getUsersFollowingArtist s ev.artist_id)).ok = true ∨
        getUsersFollowingArtist s ev.artist_id = []) := by
  unfold processEvent at h
  dsimp only at h
  split at h
  · rename_i hcond
    rw [Bool.or_eq_true] at hcond
    rcases (mem_wrap _ _ _ _).mp h with h | h | h
    · exact absurd h (by simp)
    · exact absurd rfl (processUsers_no_mark w ev _ s _ h eid')
    · have heid : eid' = ev.id := by injection h
      refine ⟨heid, ?_⟩
      rcases hcond with hok | hemp
      · exact Or.inl hok
      · exact Or.inr (List.isEmpty_iff.mp hemp)
  · rcases List.mem_cons.mp h with h | h
    · exact absurd h (by simp)
    · exact absurd rfl (processUsers_no_mark w ev _ s _ h eid')

theorem processEvents_mark (w : World) (l : List KnownEvent) :
    ∀ s : St, ∀ eid' : Nat, Action.mark eid' ∈ (processEvents w s l).tr →
      ∃ ev ∈ l, ev.id = eid' ∧
        ((∃ u, Action.send u eid' true ∈ (processEvents w s l).tr) ∨
          getUsersFollowingArtist s ev.artist_id = []) := by
  induction l with
  | nil => intro s eid' h; simp [processEvents] at h
  | cons ev0 rest ih =>
    intro s eid' h
    have htr : (processEvents w s (ev0 :: rest)).tr =
        (processEvent w s ev0).tr ++ (processEvents w (processEvent w s ev0).st rest).tr := rfl
    have h' : Action.mark eid' ∈ (processEvent w s ev0).tr ∨
        Action.mark eid' ∈ (processEvents w (processEvent w s ev0).st rest).tr := by
      rw [htr] at h
      exact List.mem_append.mp h
    rcases h' with h | h
    · obtain ⟨heid, hcond⟩ := processEvent_mark w s ev0 eid' h
      refine ⟨ev0, List.mem_cons_self _ _, heid.symm, ?_⟩
      rcases hcond with hok | hemp
      · rcases (processUsers_ok_iff w ev0 _ s).mp hok with ⟨uid, hu⟩
        left
        refine ⟨uid, ?_⟩
        rw [htr, heid]
        exact List.mem_append.mpr (Or.inl (processUsers_tr_sub w s ev0 _ hu))
      · exact Or.inr hemp
    · obtain ⟨ev, hev, heid, hcond⟩ := ih (processEvent w s ev0).st eid' h
      have hx := processEvent_ext w s ev0
      refine ⟨ev, List.mem_cons_of_mem ev0 hev, heid, ?_⟩
      rcases hcond with ⟨u, hu⟩ | hemp
      · left
        exact ⟨u, by rw [htr]; exact List.mem_append.mpr (Or.inr hu)⟩
      · right
        rw [← getUsersFollowingArtist_congr ev.artist_id hx.1 hx.2.1]
        exact hemp

theorem processTMEvents_no_mark (a : String) (l : List TMEvent) :
    ∀ s : St, ∀ x ∈ (processTMEvents s a l).tr, ∀ e, x ≠ Action.mark e := by
  induction l with
  | nil => intro s x hx; simp [processTMEvents] at hx
  | cons ev rest ih =>
    intro s x hx e
    have hx' : x ∈ (processTMEvent s a ev).tr ∨
        x ∈ (processTMEvents (processTMEvent s a ev).st a rest).tr := by
      simpa [processTMEvents] using List.mem_append.mp hx
    rcases hx' with h | h
    · unfold processTMEvent at h
      split at h
      · simp only [List.mem_singleton] at h
        subst h; simp
      · simp only [List.mem_cons, List.not_mem_nil, or_false] at h
        rcases h with h | h <;> subst h <;> simp
    · exact ih (processTMEvent s a ev).st x h e

theorem discoverArtists_no_mark (w : World) (ids : List String) :
    ∀ s : St, ∀ x ∈ (discoverArtists w s ids).tr, ∀ e, x ≠ Action.mark e := by
  induction ids with
  | nil => intro s x hx; simp [discoverArtists] at hx
  | cons a rest ih =>
    intro s x hx e
    have hx' : x ∈ (discoverArtist w s a).tr ∨
        x ∈ (discoverArtists w (discoverArtist w s a).st rest).tr := by
      simpa [discoverArtists] using List.mem_append.mp hx
    rcases hx' with h | h
    · rcases List.mem_cons.mp h with h | h
      · simp [h]
      · exact processTMEvents_no_mark a (fetchEventsForArtist (w.fetchRes a)) s x h e
    · exact ih (discoverArtist w s a).st x h e

theorem syncEventsAndNotify_mark (w : World) (s : St) (eid' : Nat)
    (h : Action.mark eid' ∈ (syncEventsAndNotify w s).tr) :
    ∃ ev ∈ getUnnotifiedEvents (discoverPhase w s).st, ev.id = eid' ∧
      ((∃ u, Action.send u eid' true ∈ (syncEventsAndNotify w s).tr) ∨
        getUsersFollowingArtist (discoverPhase w s).st ev.artist_id = []) := by
  have htr : (syncEventsAndNotify w s).tr =
      (discoverPhase w s).tr ++ (notifyPhase w (discoverPhase w s).st).tr := rfl
  have h' : Action.mark eid' ∈ (notifyPhase w (discoverPhase w s).st).tr := by
    rw [htr] at h
    rcases List.mem_append.mp h with hm | hm
    · exfalso
      have hd : Action.mark eid' ∈
          Action.queryArtists :: (discoverArtists w s (getUniqueArtistIds s)).tr := hm
      rcases List.mem_cons.mp hd with hc | hc
      · exact absurd hc (by simp)
      · exact discoverArtists_no_mark w (getUniqueArtistIds s) s _ hc eid' rfl
    · exact hm
  have h'' : Action.mark eid' ∈
      (processEvents w (discoverPhase w s).st
        (getUnnotifiedEvents (discoverPhase w s).st)).tr := by
    rcases List.mem_cons.mp h' with hc | hc
    · exact absurd hc (by simp)
    · exact hc
  obtain ⟨ev, hev, heid, hcond⟩ := processEvents_mark w _ (discoverPhase w s).st eid' h''
  refine ⟨ev, hev, heid, ?_⟩
  rcases hcond with ⟨u, hu⟩ | hemp
  · left
    refine ⟨u, ?_⟩
    rw [htr]
    exact List.mem_append.mpr (Or.inr (List.mem_cons_of_mem _ hu))
  · exact Or.inr hemp

theorem events_id_inj (s' : St) (h : (eventIds s').Nodup) :
    ∀ a ∈ s'.events, ∀ b ∈ s'.events, a.id = b.id → a = b := by
  intro a ha b hb hab
  exact List.inj_on_of_nodup_map h ha hb hab

/-- An event whose row is already notified is never re-marked: its id
cannot be in the unnotified snapshot. -/
theorem no_remark (w : World) (s : St) (hwf : WF s) :
    ∀ e ∈ s.events, e.notified = true →
      Action.mark e.id ∉ (syncEventsAndNotify w s).tr := by
  intro e he hnot hmark
  obtain ⟨ev, hev, heid, -⟩ := syncEventsAndNotify_mark w s e.id hmark
  have hevents : ev ∈ (discoverPhase w s).st.events := List.mem_of_mem_filter hev
  have hevnot : ev.notified = false := by
    have := (List.mem_filter.mp hev).2
    simpa using this
  obtain ⟨news, hnews, -⟩ := discoverArtists_events w (getUniqueArtistIds s) s
  have he' : e ∈ (discoverPhase w s).st.events := by
    show e ∈ (discoverArtists w s (getUniqueArtistIds s)).st.events
    rw [hnews]
    exact List.mem_append.mpr (Or.inl he)
  have hwfD : WF (discoverPhase w s).st := WF_discoverArtists w (getUniqueArtistIds s) s hwf
  have : ev = e := events_id_inj (discoverPhase w s).st hwfD.1 ev hevents e he' heid
  rw [this, hnot] at hevnot
  exact absurd hevnot (by simp)

/-! ### Insert accounting: the count of insert actions for an upstream
event id equals the change of that id's presence in the event store, so
each upstream event id is inserted at most once no matter how runs are
cut and restarted. -/

/-- Is this action an insert of an event with the given upstream id? -/
def isInsertOf (t : String) (a : Action) : Bool :=
  match a with
  | Action.insert e => decide (e.id = t)
  | _ => false

/-- Number of insertKnownEvent invocations for one upstream event id in a
trace. -/
def insCount (t : String) (tr : List Action) : Nat :=
  tr.countP (isInsertOf t)

/-- 1 when a row with the given ticketmaster_id is in the event store. -/
def tmInd (t : String) (s : St) : Nat :=
  if eventExists s t = true then 1 else 0

theorem tmInd_le_one (t : String) (s : St) : tmInd t s ≤ 1 := by
  unfold tmInd; split <;> simp

theorem insCount_append (t : String) (t1 t2 : List Action) :
    insCount t (t1 ++ t2) = insCount t t1 + insCount t t2 :=
  List.countP_append _ _ _

theorem insCount_zero (t : String) (tr : List Action)
    (h : ∀ a ∈ tr, ∀ e, a ≠ Action.insert e) : insCount t tr = 0 := by
  unfold insCount
  rw [List.countP_eq_zero]
  intro a ha
  cases a with
  | insert e => exact absurd rfl (h (Action.insert e) ha e)
  | queryArtists => simp [isInsertOf]
  | fetch x => simp [isInsertOf]
  | queryExists x => simp [isInsertOf]
  | queryUnnotified => simp [isInsertOf]
  | queryFollowers x => simp [isInsertOf]
  | queryLedger x y => simp [isInsertOf]
  | send x y b => simp [isInsertOf]
  | record x y => simp [isInsertOf]
  | mark x => simp [isInsertOf]

theorem eventExists_congr {s s' : St} (t : String) (h : s'.events = s.events) :
    eventExists s' t = eventExists s t := by
  unfold eventExists
  rw [h]

theorem markEventAsNotified_eventExists (s : St) (eid : Nat) (t : String) :
    eventExists (markEventAsNotified s eid) t = eventExists s t := by
  unfold eventExists markEventAsNotified
  show (s.events.map _).any _ = _
  generalize s.events = l
  induction l with
  | nil => rfl
  | cons e rest ih =>
    rw [List.map_cons, List.any_cons, List.any_cons, ih]
    refine congrArg₂ _ ?_ rfl
    show decide ((if e.id = eid then { e with notified := true } else e).ticketmaster_id = t) = _
    split <;> rfl

theorem ins_processTMEvent (t : String) (s : St) (a : String) (e : TMEvent) :
    tmInd t (processTMEvent s a e).st = tmInd t s + insCount t (processTMEvent s a e).tr := by
  unfold processTMEvent
  split
  · simp [insCount, tmInd, isInsertOf]
  · rename_i hne
    by_cases ht : e.id = t
    · subst ht
      have hafter : eventExists (insertKnownEvent s e a (artistNameFor e a)) e.id = true := by
        unfold eventExists insertKnownEvent
        rw [List.any_append, Bool.or_eq_true]
        right
        simp [newKnownEvent]
      have hcnt : insCount e.id [Action.queryExists e.id, Action.insert e] = 1 := by
        simp [insCount, isInsertOf, List.countP_cons]
      unfold tmInd
      rw [hafter, hcnt, if_pos rfl, if_neg hne]
    · have hafter : eventExists (insertKnownEvent s e a (artistNameFor e a)) t =
          eventExists s t := by
        unfold eventExists insertKnownEvent
        rw [List.any_append]
        have : [newKnownEvent s e a (artistNameFor e a)].any
            (fun r => decide (r.ticketmaster_id = t)) = false := by
          simp [newKnownEvent, ht]
        rw [this, Bool.or_false]
      have hcnt : insCount t [Action.queryExists e.id, Action.insert e] = 0 := by
        simp [insCount, isInsertOf, List.countP_cons, ht]
      unfold tmInd
      rw [hafter, hcnt, Nat.add_zero]

theorem ins_processTMEvents (t : String) (a : String) (l : List TMEvent) :
    ∀ s : St, tmInd t (processTMEvents s a l).st =
      tmInd t s + insCount t (processTMEvents s a l).tr := by
  induction l with
  | nil => intro s; simp [processTMEvents, insCount]
  | cons e0 rest ih =>
    intro s
    have h1 := ins_processTMEvent t s a e0
    have h2 := ih (processTMEvent s a e0).st
    show tmInd t (processTMEvents (processTMEvent s a e0).st a rest).st =
      tmInd t s + insCount t ((processTMEvent s a e0).tr ++
        (processTMEvents (processTMEvent s a e0).st a rest).tr)
    rw [insCount_append, h2, h1]
    omega

theorem ins_discoverArtists (t : String) (w : World) (ids : List String) :
    ∀ s : St, tmInd t (discoverArtists w s ids).st =
      tmInd t s + insCount t (discoverArtists w s ids).tr := by
  induction ids with
  | nil => intro s; simp [discoverArtists, insCount]
  | cons a rest ih =>
    intro s
    have h1 := ins_processTMEvents t a (fetchEventsForArtist (w.fetchRes a)) s
    have h2 := ih (discoverArtist w s a).st
    have hf : insCount t [Action.fetch a] = 0 := by simp [insCount, isInsertOf]
    have h1' : tmInd t (discoverArtist w s a).st =
        tmInd t s + insCount t (processTMEvents s a (fetchEventsForArtist (w.fetchRes a))).tr := h1
    show tmInd t (discoverArtists w (discoverArtist w s a).st rest).st =
      tmInd t s + insCount t (([Action.fetch a] ++
        (processTMEvents s a (fetchEventsForArtist (w.fetchRes a))).tr) ++
        (discoverArtists w (discoverArtist w s a).st rest).tr)
    rw [insCount_append, insCount_append, h2, hf, h1']
    omega

theorem ins_discoverPhase (t : String) (w : World) (s : St) :
    tmInd t (discoverPhase w s).st = tmInd t s + insCount t (discoverPhase w s).tr := by
  have h := ins_discoverArtists t w (getUniqueArtistIds s) s
  have hq : insCount t [Action.queryArtists] = 0 := by simp [insCount, isInsertOf]
  show tmInd t (discoverArtists w s (getUniqueArtistIds s)).st =
    tmInd t s + insCount t ([Action.queryArtists] ++
      (discoverArtists w s (getUniqueArtistIds s)).tr)
  rw [insCount_append, h, hq]
  omega

theorem processUser_no_insert (w : World) (ev : KnownEvent) (s : St) (u : String × String) :
    ∀ x ∈ (processUser w ev s u).tr, ∀ e, x ≠ Action.insert e := by
  intro x hx e
  unfold processUser at hx
  split at hx
  · simp only [List.mem_singleton] at hx
    subst hx; simp
  · split at hx
    · simp only [List.mem_cons, List.not_mem_nil, or_false] at hx
      rcases hx with hx | hx | hx <;> (subst hx; simp)
    · simp only [List.mem_cons, List.not_mem_nil, or_false] at hx
      rcases hx with hx | hx <;> (subst hx; simp)

theorem processUsers_no_insert (w : World) (ev : KnownEvent) (us : List (String × String)) :
    ∀ s : St, ∀ x ∈ (processUsers w ev s us).tr, ∀ e, x ≠ Action.insert e := by
  induction us with
  | nil => intro s x hx; simp [processUsers] at hx
  | cons u rest ih =>
    intro s x hx e
    have hx' : x ∈ (processUser w ev s u).tr ∨
        x ∈ (processUsers w ev (processUser w ev s u).st rest).tr := by
      simpa [processUsers] using List.mem_append.mp hx
    rcases hx' with h | h
    · exact processUser_no_insert w ev s u x h e
    · exact ih (processUser w ev s u).st x h e

theorem processEvent_no_insert (w : World) (s : St) (ev : KnownEvent) :
    ∀ x ∈ (processEvent w s ev).tr, ∀ e, x ≠ Action.insert e := by
  intro x hx e
  unfold processEvent at hx
  dsimp only at hx
  split at hx
  · rcases (mem_wrap _ _ _ _).mp hx with h | h | h
    · subst h; simp
    · exact processUsers_no_insert w ev _ s x h e
    · subst h; simp
  · rcases List.mem_cons.mp hx with h | h
    · subst h; simp
    · exact processUsers_no_insert w ev _ s x h e

theorem processEvents_no_insert (w : World) (l : List KnownEvent) :
    ∀ s : St, ∀ x ∈ (processEvents w s l).tr, ∀ e, x ≠ Action.insert e := by
  induction l with
  | nil => intro s x hx; simp [processEvents] at hx
  | cons ev rest ih =>
    intro s x hx e
    have hx' : x ∈ (processEvent w s ev).tr ∨
        x ∈ (processEvents w (processEvent w s ev).st rest).tr := by
      simpa [processEvents] using List.mem_append.mp hx
    rcases hx' with h | h
    · exact processEvent_no_insert w s ev x h e
    · exact ih (processEvent w s ev).st x h e

theorem processEvent_eventExists (w : World) (s : St) (ev : KnownEvent) (t : String) :
    eventExists (processEvent w s ev).st t = eventExists s t := by
  unfold processEvent
  dsimp only
  split
  · rw [markEventAsNotified_eventExists]
    exact eventExists_congr t (processUsers_ext w ev _ s).2.2.1
  · exact eventExists_congr t (processUsers_ext w ev _ s).2.2.1

theorem processEvents_eventExists (w : World) (l : List KnownEvent) :
    ∀ s : St, ∀ t : String,
      eventExists (processEvents w s l).st t = eventExists s t := by
  induction l with
  | nil => intro s t; rfl
  | cons ev rest ih =>
    intro s t
    show eventExists (processEvents w (processEvent w s ev).st rest).st t = _
    rw [ih (processEvent w s ev).st t, processEvent_eventExists]

theorem ins_notifyPhase (t : String) (w : World) (s : St) :
    tmInd t (notifyPhase w s).st = tmInd t s + insCount t (notifyPhase w s).tr := by
  have h0 : insCount t (notifyPhase w s).tr = 0 := by
    apply insCount_zero
    intro a ha e
    rcases List.mem_cons.mp ha with h | h
    · subst h; simp
    · exact processEvents_no_insert w (getUnnotifiedEvents s) s a h e
  rw [h0, Nat.add_zero]
  unfold tmInd
  rw [show (notifyPhase w s).st = (processEvents w s (getUnnotifiedEvents s)).st from rfl,
    processEvents_eventExists]

theorem ins_syncEventsAndNotify (t : String) (w : World) (s : St) :
    tmInd t (syncEventsAndNotify w s).st =
      tmInd t s + insCount t (syncEventsAndNotify w s).tr := by
  show tmInd t (notifyPhase w (discoverPhase w s).st).st =
    tmInd t s + insCount t ((discoverPhase w s).tr ++ (notifyPhase w (discoverPhase w s).st).tr)
  rw [insCount_append, ins_notifyPhase, ins_discoverPhase]
  omega

theorem ins_discoverCut (t : String) (w : World) (s : St) (kA kE : Nat) :
    tmInd t (discoverCut w s kA kE).1 =
      tmInd t s + insCount t (discoverCut w s kA kE).2 := by
  unfold discoverCut
  dsimp only
  have h1 := ins_discoverArtists t w ((getUniqueArtistIds s).take kA) s
  have hqa : insCount t [Action.queryArtists] = 0 := by simp [insCount, isInsertOf]
  split
  · rename_i a rest heq
    have h2 := ins_processTMEvents t a ((fetchEventsForArtist (w.fetchRes a)).take kE)
      (discoverArtists w s ((getUniqueArtistIds s).take kA)).st
    have hf : insCount t [Action.fetch a] = 0 := by simp [insCount, isInsertOf]
    rw [insCount_append, insCount_append, insCount_append, h2, h1, hqa, hf]
    omega
  · rw [insCount_append, h1, hqa]
    omega

theorem processEventCut_eventExists (w : World) (s : St) (ev : KnownEvent)
    (kUser : Nat) (half : Bool) (t : String) :
    eventExists (processEventCut w s ev kUser half).1 t = eventExists s t := by
  unfold processEventCut
  dsimp only
  split
  · exact eventExists_congr t (processUsers_ext w ev _ s).2.2.1
  · exact eventExists_congr t (processUsers_ext w ev _ s).2.2.1

theorem processEventCut_no_insert (w : World) (s : St) (ev : KnownEvent)
    (kUser : Nat) (half : Bool) :
    ∀ x ∈ (processEventCut w s ev kUser half).2, ∀ e, x ≠ Action.insert e := by
  intro x hx e
  unfold processEventCut at hx
  dsimp only at hx
  split at hx
  · rename_i u rest heq
    rcases List.mem_cons.mp hx with h | h
    · subst h; simp
    rcases List.mem_append.mp h with h | h
    · exact processUsers_no_insert w ev _ s x h e
    · have := processUserNoRecord_no_record w ev
        (processUsers w ev s ((getUsersFollowingArtist s ev.artist_id).take kUser)).st u
      unfold processUserNoRecord at h
      split at h
      · simp only [List.mem_singleton] at h
        subst h; simp
      · split at h <;>
          simp only [List.mem_cons, List.not_mem_nil, or_false] at h <;>
          rcases h with h | h <;> (subst h; simp)
  · rcases List.mem_cons.mp hx with h | h
    · subst h; simp
    · exact processUsers_no_insert w ev _ s x h e

theorem ins_notifyPhaseCut (t : String) (w : World) (s : St)
    (kEv kUser : Nat) (half : Bool) :
    tmInd t (notifyPhaseCut w s kEv kUser half).1 =
      tmInd t s + insCount t (notifyPhaseCut w s kEv kUser half).2 := by
  unfold notifyPhaseCut
  dsimp only
  split
  · rename_i ev rest heq
    have h0 : insCount t ([Action.queryUnnotified] ++
        (processEvents w s ((getUnnotifiedEvents s).take kEv)).tr ++
        (processEventCut w (processEvents w s ((getUnnotifiedEvents s).take kEv)).st
          ev kUser half).2) = 0 := by
      apply insCount_zero
      intro a ha e
      rcases List.mem_append.mp ha with h | h
      · rcases List.mem_cons.mp h with h | h
        · subst h; simp
        · exact processEvents_no_insert w _ s a h e
      · exact processEventCut_no_insert w _ ev kUser half a h e
    rw [h0, Nat.add_zero]
    unfold tmInd
    rw [processEventCut_eventExists, processEvents_eventExists]
  · have h0 : insCount t ([Action.queryUnnotified] ++
        (processEvents w s ((getUnnotifiedEvents s).take kEv)).tr) = 0 := by
      apply insCount_zero
      intro a ha e
      rcases List.mem_cons.mp ha with h | h
      · subst h; simp
      · exact processEvents_no_insert w _ s a h e
    rw [h0, Nat.add_zero]
    unfold tmInd
    rw [processEvents_eventExists]

theorem ins_execRun (t : String) (w : World) (s : St) (r : RunSpec) :
    tmInd t (execRun w s r).1 = tmInd t s + insCount t (execRun w s r).2 := by
  cases r with
  | full => exact ins_syncEventsAndNotify t w s
  | stopInDiscover kA kE => exact ins_discoverCut t w s kA kE
  | stopInNotify kEv kUser half =>
    show tmInd t (notifyPhaseCut w (discoverPhase w s).st kEv kUser half).1 =
      tmInd t s + insCount t ((discoverPhase w s).tr ++
        (notifyPhaseCut w (discoverPhase w s).st kEv kUser half).2)
    rw [insCount_append, ins_notifyPhaseCut, ins_discoverPhase]
    omega

theorem ins_execRuns (t : String) (runs : List (World × RunSpec)) :
    ∀ s : St, tmInd t (execRuns s runs).1 =
      tmInd t s + insCount t (execRuns s runs).2 := by
  induction runs with
  | nil => intro s; simp [execRuns, insCount]
  | cons p rest ih =>
    intro s
    show tmInd t (execRuns (execRun p.1 s p.2).1 rest).1 =
      tmInd t s + insCount t ((execRun p.1 s p.2).2 ++ (execRuns (execRun p.1 s p.2).1 rest).2)
    rw [insCount_append, ih, ins_execRun]
    omega

/-- Scenario: one unnotified event with two eligible followers, the push
provider accepting U1's message and rejecting U2's, the catalog
unreachable. -/
def c3Event : KnownEvent :=
  { id := 0, ticketmaster_id := "T1", artist_id := "A1", artist_name := "A",
    event_name := "E", venue_name := "V", city := "C", event_date := none,
    ticket_url := "", image_url := "", notified := false }

def c3State : St :=
  { events := [c3Event], ledger := [], nextId := 1,
    userArtists := [("U1", "A1"), ("U2", "A1")],
    users := [{ id := "U1", push_token := some "t1" },
              { id := "U2", push_token := some "t2" }] }

def c3World : World :=
  { fetchRes := fun _ => FetchResult.networkError,
    sendOk := fun u _ => decide (u = "U1") }

/-- C3 counterexample: the claim says the notified flag transitions to
true only after the notify phase has either delivered to all eligible
recipients or determined there were none.  In this run the event's flag
transitions to true although eligible recipient U2 was never delivered
(the send for U2 failed, no notification record exists for U2), so the
claim as stated is false of the code: the code marks after at least one
success, not after delivery to all. -/
theorem c3_counterexample :
    (syncEventsAndNotify c3World c3State).st.events.map (fun e => (e.id, e.notified)) =
      [(0, true)] ∧
    ("U2", "t2") ∈ getUsersFollowingArtist c3State "A1" ∧
    Action.send "U2" 0 false ∈ (syncEventsAndNotify c3World c3State).tr ∧
    ("U2", 0) ∉ (syncEventsAndNotify c3World c3State).st.ledger := by
  decide

/-- C3 amended: every known event is created exactly once — across any
sequence of (possibly interrupted) runs, insertKnownEvent is invoked at
most once per upstream event id — and the row is created with
notified = false by the insert step; across a run no event row is ever
deleted and rows change only by the notified flag becoming true (never
reverting); a row already notified is never marked again; and the
transition happens only after a notify pass over the event in which at
least one eligible recipient received a successful send or the event had
zero eligible recipients. -/
theorem c3_amended_lifecycle (w : World) (s : St) :
    (∀ (s0 : St) (runs : List (World × RunSpec)) (t : String),
      insCount t (execRuns s0 runs).2 ≤ 1) ∧
    (∀ (s0 : St) (e : TMEvent) (aid an : String),
      (newKnownEvent s0 e aid an).notified = false ∧
      (insertKnownEvent s0 e aid an).events = s0.events ++ [newKnownEvent s0 e aid an]) ∧
    (∀ e ∈ s.events, ∃ e' ∈ (syncEventsAndNotify w s).st.events, rowEvolved e e') ∧
    (WF s → ∀ e ∈ s.events, e.notified = true →
      Action.mark e.id ∉ (syncEventsAndNotify w s).tr) ∧
    (∀ eid', Action.mark eid' ∈ (syncEventsAndNotify w s).tr →
      ∃ ev ∈ getUnnotifiedEvents (discoverPhase w s).st, ev.id = eid' ∧
        ((∃ u, Action.send u eid' true ∈ (syncEventsAndNotify w s).tr) ∨
          getUsersFollowingArtist (discoverPhase w s).st ev.artist_id = [])) := by
  refine ⟨?_, fun s0 e aid an => ⟨rfl, rfl⟩, ?_, no_remark w s, syncEventsAndNotify_mark w s⟩
  · intro s0 runs t
    have h := ins_execRuns t runs s0
    have hle := tmInd_le_one t (execRuns s0 runs).1
    omega
  · intro e he
    obtain ⟨news, hnews, -⟩ := discoverArtists_events w (getUniqueArtistIds s) s
    have he' : e ∈ (discoverPhase w s).st.events := by
      show e ∈ (discoverArtists w s (getUniqueArtistIds s)).st.events
      rw [hnews]
      exact List.mem_append.mpr (Or.inl he)
    exact rows_mem (notifyPhase_rows w (discoverPhase w s).st) e he'

/-! ### Concrete scenarios instantiating the theorems. -/

/-- A music event for artist A1 as returned by the catalog. -/
def exEvent : TMEvent :=
  { id := "EVT1", name := "Show", dateTime := some "2026-01-01T20:00:00Z", localDate := none,
    venues := [{ name := "V", city := some "C" }],
    attractions := [{ id := "A1", name := "Artist X" }],
    url := some "u", images := [{ url := "img", width := 100 }],
    classifications := [{ segment := some "Music", genre := none }] }

/-- One user following artist A1, with a push token; empty event store. -/
def exState : St :=
  { events := [], ledger := [], nextId := 0,
    userArtists := [("U1", "A1")],
    users := [{ id := "U1", push_token := some "tok1" }] }

def exWorldOk : World :=
  { fetchRes := fun _ => FetchResult.ok (some [exEvent]), sendOk := fun _ _ => true }

def exWorldFail : World :=
  { fetchRes := fun _ => FetchResult.ok (some [exEvent]), sendOk := fun _ _ => false }

/-- An unnotified event whose artist nobody follows. -/
def exStateNoFollowers : St :=
  { events := [c3Event], ledger := [], nextId := 1, userArtists := [], users := [] }

theorem c2_event_marking_witness :
    (processEvent exWorldOk exStateNoFollowers c3Event).tr =
      [Action.queryFollowers "A1", Action.mark 0] ∧
    (processEvent exWorldOk exStateNoFollowers c3Event).sent = 0 :=
  ⟨((c2_event_marking exWorldOk exStateNoFollowers c3Event).2 (by decide)).1,
    ((c2_event_marking exWorldOk exStateNoFollowers c3Event).2 (by decide)).2.1⟩

/-- The single-follower state holding the unnotified two-follower event. -/
def exStateWithEvent : St :=
  { events := [c3Event], ledger := [], nextId := 1,
    userArtists := [("U1", "A1")],
    users := [{ id := "U1", push_token := some "tok1" }] }

theorem c3_amended_lifecycle_witness :
    ∃ e' ∈ (syncEventsAndNotify exWorldOk exStateWithEvent).st.events, rowEvolved c3Event e' :=
  (c3_amended_lifecycle exWorldOk exStateWithEvent).2.2.1 c3Event (by decide)

theorem c4_idempotent_discovery_witness :
    (tmIds (discoverPhase exWorldOk exState).st).Nodup :=
  (c4_idempotent_discovery exWorldOk exState).2.2 (by decide)

theorem c5_eventual_retry_witness :
    ∃ b, Action.send "U1" 0 b ∈
      (syncEventsAndNotify exWorldOk (syncEventsAndNotify exWorldFail exState).st).tr :=
  c5_eventual_retry exWorldFail exWorldOk exState "U1" 0 (by decide) (by decide)
    (by decide) (by decide)

/-- Both artists followed; the fetch for A0 fails, A1 returns the event. -/
def exStateTwoArtists : St :=
  { events := [], ledger := [], nextId := 0,
    userArtists := [("U1", "A0"), ("U1", "A1")],
    users := [{ id := "U1", push_token := some "tok1" }] }

def exWorldMixed : World :=
  { fetchRes := fun a => if a = "A1" then FetchResult.ok (some [exEvent])
      else FetchResult.networkError,
    sendOk := fun _ _ => true }

theorem c6_isolation_witness :
    Action.fetch "A1" ∈ (discoverPhase exWorldMixed exStateTwoArtists).tr ∧
    ∀ e ∈ fetchEventsForArtist (exWorldMixed.fetchRes "A1"),
      eventExists (discoverPhase exWorldMixed exStateTwoArtists).st e.id = true :=
  c6_isolation exWorldMixed exStateTwoArtists "A0" "A1" (by decide) (by decide) (by decide)

theorem c7_rate_limit_retry_witness :
    fetchWithRetry (fun _ => HttpAttempt.status 429) 0 3 1000 =
      (Except.error "Rate limit exceeded after retries", [1000, 2000, 4000]) :=
  (c7_rate_limit_retry (fun _ => HttpAttempt.status 429) (fun _ => rfl) 3 0 1000).trans
    (by rfl)

theorem c8_non_performance_filter_witness : isSportsEvent exEvent = false :=
  (c8_non_performance_filter exWorldOk exState).1 exEvent (by decide)

def exConfigBad : Config :=
  { ticketmasterApiKey := none, supabaseUrl := some "url", serviceRoleKey := some "key" }

theorem c9_trigger_surface_witness :
    handleRequest exConfigBad exWorldOk exState HttpMethod.post =
      (ServeResponse.failure "TICKETMASTER_API_KEY is not set", exState, []) :=
  (c9_trigger_surface exConfigBad exWorldOk exState).2 "TICKETMASTER_API_KEY is not set" rfl

def exConfigOk : Config :=
  { ticketmasterApiKey := some "k", supabaseUrl := some "u", serviceRoleKey := some "r" }

def exWorldAllFail : World :=
  { fetchRes := fun _ => FetchResult.httpError 429, sendOk := fun _ _ => true }

def exWorldEmpty : World :=
  { fetchRes := fun _ => FetchResult.ok (some []), sendOk := fun _ _ => true }

theorem c10_failures_as_empty_witness :
    handleRequest exConfigOk exWorldAllFail exState HttpMethod.post =
      handleRequest exConfigOk exWorldEmpty exState HttpMethod.post :=
  (c10_failures_as_empty exConfigOk exWorldAllFail exWorldEmpty exState rfl
    (fun _ => rfl) (fun _ => rfl) rfl).2.2

/-! ### The repository's own non-performance classifier (the mobile
client's mapCategory and transformEvent parking test), and a parking pass
that reaches the event store. -/

/-- Display categories of the mobile client. -/
inductive Category where
  | Music
  | Comedy
  | Theater
deriving DecidableEq, Repr

/-- Does the first list start with the second? (Char-list helper so that
substring tests compute in the kernel.) -/
def charsStartWith : List Char → List Char → Bool
  | [], _ => true
  | _ :: _, [] => false
  | c :: cs, d :: ds => decide (c = d) && charsStartWith cs ds

/-- Does the haystack contain the needle as a contiguous substring, as
JavaScript String.prototype.includes?  Arguments flipped: the needle
starts at some position of the haystack. -/
def charsContains : List Char → List Char → Bool
  | [], needle => needle.isEmpty
  | c :: rest, needle => charsStartWith needle (c :: rest) || charsContains rest needle

def jsIncludes (hay needle : String) : Bool :=
  charsContains hay.data needle.data

/-- mapCategory of the mobile Ticketmaster client: which display category
a classification (segment?.name, genre?.name) pair belongs to; none means
the classification is a non-performance category. -/
def mapCategory (segment genre : Option String) : Option Category :=
  match segment with
  | none => none
  | some seg =>
    if seg = "" then none
    else if seg = "Music" then some Category.Music
    else if genre = some "Comedy" ∨ seg = "Comedy" then some Category.Comedy
    else if seg = "Arts & Theatre" then
      match genre with
      | some g =>
        if g ≠ "" ∧ (jsIncludes g "Museum" = true ∨ jsIncludes g "Exhibit" = true ∨
            jsIncludes g "Attraction" = true ∨ jsIncludes g "Fine Art" = true) then none
        else some Category.Theater
      | none => some Category.Theater
    else none

/-- The category the mobile client's transformEvent assigns an event, from
its first classification entry. -/
def eventCategory (e : TMEvent) : Option Category :=
  mapCategory (e.classifications.head?.bind (fun c => c.segment))
    (e.classifications.head?.bind (fun c => c.genre))

/-- transformEvent's parking test:
e.name.toLowerCase().includes('parking'). -/
def isParkingNamed (e : TMEvent) : Bool :=
  charsContains (e.name.data.map Char.toLower) "parking".data

/-- A Ticketmaster parking pass: Miscellaneous/Parking classification and
a parking name; not a Sports event. -/
def parkingEvent : TMEvent :=
  { id := "PK1", name := "Stadium Parking", dateTime := some "2026-01-01T20:00:00Z",
    localDate := none, venues := [], attractions := [{ id := "A1", name := "Artist X" }],
    url := none, images := [],
    classifications := [{ segment := some "Miscellaneous", genre := some "Parking" }] }

def c8World : World :=
  { fetchRes := fun _ => FetchResult.ok (some [parkingEvent]), sendOk := fun _ _ => true }

/-- C8 counterexample: the claim says every event whose classification
metadata marks it as a non-performance category — explicitly including a
parking pass — is dropped before any event reaches the event store.  This
parking pass is a non-performance item by the repository's own classifier
(mapCategory of its Miscellaneous/Parking classification is none, and the
client's parking name test fires), it is not Sports-classified, and the
discover phase passes it to the insert step and stores it: the event-store
path filters only the Sports segment. -/
theorem c8_counterexample :
    isSportsEvent parkingEvent = false ∧
    eventCategory parkingEvent = none ∧
    isParkingNamed parkingEvent = true ∧
    Action.insert parkingEvent ∈ (discoverPhase c8World exState).tr ∧
    eventExists (discoverPhase c8World exState).st "PK1" = true := by
  decide

end Unmissable
